import Mathlib

/-!
StreamV9 — formal model of the file-backed catalog store

A shallow embedding of the core of the StreamV9 repository: the zod
validation schemas (src/validation/schemas.ts), the series merge engine and
the domain services (src/services/catalogService.ts, src/services/userService.ts).

Conventions of the embedding:
* JS numbers that the schemas constrain to integers are modelled as `Int`.
* ISO timestamp strings produced by dayjs are opaque `String` parameters
  (`now`): every call site that stamps a time receives it as an argument.
* `randomUUID()` and `bcrypt.hash` results are `String` parameters.
* A zod input object is a structure of `Option` fields (a missing key is
  `none`); `...FromInput` functions model `schema.parse`: they fail on a
  missing required key, fill declared defaults, check the declared bounds
  and apply the declared transforms.
* File-system state is passed explicitly: each service operation is a pure
  function from the parsed stored document(s) to either an error or the
  document(s) it writes back.  An operation that returns an error writes
  nothing (the TS code throws before any write on those paths).
-/

set_option maxHeartbeats 1000000

namespace StreamV9

/-! ## Characters and whitespace -/

def isWsChar (c : Char) : Bool :=
  c = ' ' || c = '\t' || c = '\n' || c = '\r'

/-- Modelled from the spec: the sanitizer (`DOMPurify` with no allowed tags,
followed by `.trim()`, src/utils/sanitize.ts) strips HTML tag markup and
trims surrounding whitespace.  The state machine drops everything between
an opening `<` and the matching `>`, drops stray brackets, and keeps all
other characters. -/
def stripTags : Bool → List Char → List Char
  | _, [] => []
  | true, c :: cs => if c = '>' then stripTags false cs else stripTags true cs
  | false, c :: cs =>
    if c = '<' then stripTags true cs
    else if c = '>' then stripTags false cs
    else c :: stripTags false cs

/-- Drop trailing whitespace characters. -/
def dropTrailingWs : List Char → List Char
  | [] => []
  | c :: cs =>
    match dropTrailingWs cs with
    | [] => if isWsChar c then [] else [c]
    | d :: ds => c :: d :: ds

/-- `sanitize` from src/utils/sanitize.ts: strip markup, then trim. -/
def sanitize (s : String) : String :=
  ⟨(dropTrailingWs (stripTags false s.data)).dropWhile isWsChar⟩

/-! ## Slug normalization -/

def toLowerAscii (c : Char) : Char :=
  if 'A' ≤ c && c ≤ 'Z' then Char.ofNat (c.toNat + 32) else c

def isLowerAlnum (c : Char) : Bool :=
  ('a' ≤ c && c ≤ 'z') || ('0' ≤ c && c ≤ '9')

/-- First pass of the slug transform: lowercase characters that are ASCII
alphanumeric, turn whitespace and the replacement character `-` into a
space marker, drop everything else. -/
def slugMapChars : List Char → List Char
  | [] => []
  | c :: cs =>
    if isLowerAlnum (toLowerAscii c) then toLowerAscii c :: slugMapChars cs
    else if isWsChar c || c = '-' then ' ' :: slugMapChars cs
    else slugMapChars cs

/-- Second pass: collapse each run of spaces into a single hyphen.  The
boolean flag records whether the previous character already belonged to a
run of spaces. -/
def hyphenate : Bool → List Char → List Char
  | _, [] => []
  | inRun, c :: cs =>
    if c = ' ' then
      if inRun then hyphenate true cs
      else '-' :: hyphenate true cs
    else c :: hyphenate false cs

/-- Modelled from the spec: the external slug-normalization function
(`slugify(value, { lower: true, strict: true })`) "lowercases,
transliterates, and hyphenates an arbitrary string into the slug alphabet
`[a-z0-9-]`". -/
def slugifyStrict (s : String) : String :=
  ⟨hyphenate false ((dropTrailingWs (slugMapChars s.data)).dropWhile isWsChar)⟩

/-! ## Validation primitives (zod string checks) -/

def isHexDigit (c : Char) : Bool :=
  ('0' ≤ c && c ≤ '9') || ('a' ≤ c && c ≤ 'f') || ('A' ≤ c && c ≤ 'F')

/-- Model of `z.string().uuid()`: 36 characters, hyphens at positions
8, 13, 18 and 23, hexadecimal digits elsewhere. -/
def isUUID (s : String) : Bool :=
  s.data.length = 36 &&
  (List.range 36).all fun i =>
    let c := s.data.getD i ' '
    if i = 8 || i = 13 || i = 18 || i = 23 then c = '-' else isHexDigit c

def isSlugChar (c : Char) : Bool :=
  isLowerAlnum c || c = '-'

/-- Model of the slug regex `/^[a-z0-9-]+$/`. -/
def slugPatternOk (s : String) : Bool :=
  !s.data.isEmpty && s.data.all isSlugChar

def isUsernameChar (c : Char) : Bool :=
  ('a' ≤ c && c ≤ 'z') || ('A' ≤ c && c ≤ 'Z') || ('0' ≤ c && c ≤ '9') ||
  c = '_' || c = '.' || c = '-'

/-- Model of the username regex `/^[a-zA-Z0-9_.-]+$/`. -/
def usernamePatternOk (s : String) : Bool :=
  !s.data.isEmpty && s.data.all isUsernameChar

/-- The allow-listed hostnames (VIDEO_DOMAIN_WHITELIST in
src/config/constants.ts). -/
def videoDomainWhitelist : List String :=
  ["example.com", "cdn.example.com", "videos.local", "stream.local"]

/-- Model of `new URL(url).hostname`: the authority part after the
`scheme://` separator, with userinfo and port removed, lowercased. -/
def hostnameOf (url : String) : Option String :=
  let cs := url.data
  let scheme := cs.takeWhile fun c => c ≠ ':'
  match cs.drop scheme.length with
  | ':' :: '/' :: '/' :: tail =>
    if scheme.isEmpty then none
    else
      let authority := tail.takeWhile fun c => c ≠ '/' && c ≠ '?' && c ≠ '#'
      let afterUser :=
        if authority.contains '@' then
          (authority.reverse.takeWhile fun c => c ≠ '@').reverse
        else authority
      let host := afterUser.takeWhile fun c => c ≠ ':'
      if host.isEmpty then none else some ⟨host.map toLowerAscii⟩
  | _ => none

/-- Model of `z.string().url().refine(hostname in whitelist)` used for
stream, poster and subtitle URLs. -/
def allowedUrl (url : String) : Bool :=
  match hostnameOf url with
  | some h => videoDomainWhitelist.contains h
  | none => false

/-- Character count of a string (model of the JS `.length` the zod
`min`/`max` checks look at). -/
def strLen (s : String) : Nat := s.data.length

/-! ## Stable sort by key (model of `Array.prototype.sort` with a
`(a, b) => key(a) - key(b)`-style comparator) -/

def insertByKey {α : Type} {κ : Type} [LinearOrder κ] (key : α → κ) (x : α) :
    List α → List α
  | [] => [x]
  | y :: ys => if key y ≤ key x then y :: insertByKey key x ys else x :: y :: ys

/-- Stable insertion sort; models the JS stable sort used with the
`a.episode - b.episode`, `a.season - b.season` and title comparators. -/
def sortByKey {α : Type} {κ : Type} [LinearOrder κ] (key : α → κ) :
    List α → List α
  | [] => []
  | x :: xs => insertByKey key x (sortByKey key xs)

/-! ## Insertion-ordered maps (model of the JS `Map`)

A JS `Map` iterates in insertion order and `set` on an existing key keeps
the entry at its original position.  We model `Map<number, α>` as an
association list. -/

def alistSet {α : Type} (k : Int) (v : α) : List (Int × α) → List (Int × α)
  | [] => [(k, v)]
  | (k', v') :: rest =>
    if k' = k then (k, v) :: rest else (k', v') :: alistSet k v rest

def alistGet? {α : Type} (k : Int) : List (Int × α) → Option α
  | [] => none
  | (k', v') :: rest => if k' = k then some v' else alistGet? k rest

/-! ## Data model (z.infer output types of src/validation/schemas.ts) -/

structure Subtitle where
  lang : String
  label : String
  url : String
deriving Repr, DecidableEq

structure Episode where
  id : String
  title : String
  description : String
  season : Int
  episode : Int
  duration : Int
  streamUrl : String
  subtitles : List Subtitle
  published : Bool
  views : Int
  lastUpdated : String
deriving Repr, DecidableEq

structure Season where
  season : Int
  episodes : List Episode
deriving Repr, DecidableEq

structure Series where
  id : String
  name : String
  slug : String
  description : String
  posterUrl : String
  categories : List String
  seasons : List Season
  published : Bool
  featured : Bool
  createdAt : String
  updatedAt : String
deriving Repr, DecidableEq

structure Movie where
  id : String
  title : String
  slug : String
  description : String
  year : Int
  duration : Int
  posterUrl : String
  streamUrl : String
  subtitles : List Subtitle
  categories : List String
  published : Bool
  featured : Bool
  views : Int
  createdAt : String
  updatedAt : String
deriving Repr, DecidableEq

inductive Role where
  | admin
  | user
deriving Repr, DecidableEq

structure UserRecord where
  id : String
  username : String
  passwordHash : String
  role : Role
  active : Bool
  createdAt : String
  updatedAt : String
deriving Repr, DecidableEq

inductive StreamType where
  | movie
  | series
deriving Repr, DecidableEq

structure HistoryEntry where
  contentId : String
  type : StreamType
  progress : Rat
  lastWatched : String
  season : Option Int
  episode : Option Int
deriving Repr, DecidableEq

/-! ## zod input objects (a missing key is `none`) -/

structure SubtitleInput where
  lang : Option String
  label : Option String
  url : Option String
deriving Repr, DecidableEq

structure EpisodeInput where
  id : Option String
  title : Option String
  description : Option String
  season : Option Int
  episode : Option Int
  duration : Option Int
  streamUrl : Option String
  subtitles : Option (List SubtitleInput)
  published : Option Bool
  views : Option Int
  lastUpdated : Option String
deriving Repr, DecidableEq

structure SeasonInput where
  season : Option Int
  episodes : Option (List EpisodeInput)
deriving Repr, DecidableEq

structure SeriesInput where
  id : Option String
  name : Option String
  slug : Option String
  description : Option String
  posterUrl : Option String
  categories : Option (List String)
  seasons : Option (List SeasonInput)
  published : Option Bool
  featured : Option Bool
  createdAt : Option String
  updatedAt : Option String
deriving Repr, DecidableEq

structure MovieInput where
  id : Option String
  title : Option String
  slug : Option String
  description : Option String
  year : Option Int
  duration : Option Int
  posterUrl : Option String
  streamUrl : Option String
  subtitles : Option (List SubtitleInput)
  categories : Option (List String)
  published : Option Bool
  featured : Option Bool
  views : Option Int
  createdAt : Option String
  updatedAt : Option String
deriving Repr, DecidableEq

structure HistoryEntryInput where
  contentId : Option String
  type : Option StreamType
  progress : Option Rat
  lastWatched : Option String
  season : Option Int
  episode : Option Int
deriving Repr, DecidableEq

structure UserInput where
  id : Option String
  username : Option String
  passwordHash : Option String
  role : Option Role
  active : Option Bool
  createdAt : Option String
  updatedAt : Option String
deriving Repr, DecidableEq

def Subtitle.toInput (s : Subtitle) : SubtitleInput :=
  ⟨some s.lang, some s.label, some s.url⟩

def Episode.toInput (e : Episode) : EpisodeInput :=
  ⟨some e.id, some e.title, some e.description, some e.season, some e.episode,
   some e.duration, some e.streamUrl, some (e.subtitles.map Subtitle.toInput),
   some e.published, some e.views, some e.lastUpdated⟩

def Season.toInput (s : Season) : SeasonInput :=
  ⟨some s.season, some (s.episodes.map Episode.toInput)⟩

def Movie.toInput (m : Movie) : MovieInput :=
  ⟨some m.id, some m.title, some m.slug, some m.description, some m.year,
   some m.duration, some m.posterUrl, some m.streamUrl,
   some (m.subtitles.map Subtitle.toInput), some m.categories,
   some m.published, some m.featured, some m.views, some m.createdAt,
   some m.updatedAt⟩

/-! ## Schema parsing (models of `schema.parse`)

zod validates the raw value first (`min`, `max`, `regex`, `url`, `refine`)
and then applies the `sanitizedString` transform, so the checks below are on
the raw strings while the stored value is the sanitized one. -/

def subtitleFromInput (i : SubtitleInput) : Except String Subtitle :=
  match i.lang, i.label, i.url with
  | some lang, some label, some url =>
    if 2 ≤ strLen lang && strLen lang ≤ 8 && 1 ≤ strLen label &&
        strLen label ≤ 64 && allowedUrl url then
      .ok ⟨sanitize lang, sanitize label, url⟩
    else .error "subtitle validation failed"
  | _, _, _ => .error "subtitle required field missing"

def subtitlesFromInput : List SubtitleInput → Except String (List Subtitle)
  | [] => .ok []
  | i :: rest =>
    match subtitleFromInput i, subtitlesFromInput rest with
    | .ok s, .ok ss => .ok (s :: ss)
    | .error m, _ => .error m
    | _, .error m => .error m

/-- Model of `episodeSchema.parse` (src/validation/schemas.ts:111-123). -/
def episodeFromInput (i : EpisodeInput) : Except String Episode :=
  match i.id, i.title, i.description, i.season, i.episode, i.duration,
      i.streamUrl, i.lastUpdated with
  | some id, some title, some description, some season, some episode,
      some duration, some streamUrl, some lastUpdated =>
    match subtitlesFromInput (i.subtitles.getD []) with
    | .error m => .error m
    | .ok subs =>
      if isUUID id && 1 ≤ strLen title && strLen title ≤ 160 &&
          strLen description ≤ 1024 && 1 ≤ season && 1 ≤ episode &&
          1 ≤ duration && allowedUrl streamUrl && 0 ≤ i.views.getD 0 then
        .ok ⟨id, sanitize title, sanitize description, season, episode,
             duration, streamUrl, subs, i.published.getD false,
             i.views.getD 0, lastUpdated⟩
      else .error "episode validation failed"
  | _, _, _, _, _, _, _, _ => .error "episode required field missing"

def episodesFromInput : List EpisodeInput → Except String (List Episode)
  | [] => .ok []
  | i :: rest =>
    match episodeFromInput i, episodesFromInput rest with
    | .ok e, .ok es => .ok (e :: es)
    | .error m, _ => .error m
    | _, .error m => .error m

/-- Model of `seasonSchema.parse` (src/validation/schemas.ts:125-128). -/
def seasonFromInput (i : SeasonInput) : Except String Season :=
  match i.season, i.episodes with
  | some season, some episodes =>
    match episodesFromInput episodes with
    | .error m => .error m
    | .ok eps =>
      if 1 ≤ season then .ok ⟨season, eps⟩
      else .error "season validation failed"
  | _, _ => .error "season required field missing"

def seasonsFromInput : List SeasonInput → Except String (List Season)
  | [] => .ok []
  | i :: rest =>
    match seasonFromInput i, seasonsFromInput rest with
    | .ok s, .ok ss => .ok (s :: ss)
    | .error m, _ => .error m
    | _, .error m => .error m

/-- Model of `seriesSchema.parse` (src/validation/schemas.ts:130-153). -/
def seriesFromInput (i : SeriesInput) : Except String Series :=
  match i.id, i.name, i.slug, i.description, i.posterUrl, i.categories,
      i.seasons, i.createdAt, i.updatedAt with
  | some id, some name, some slug, some description, some posterUrl,
      some categories, some seasons, some createdAt, some updatedAt =>
    match seasonsFromInput seasons with
    | .error m => .error m
    | .ok parsedSeasons =>
      if isUUID id && 1 ≤ strLen name && strLen name ≤ 160 &&
          1 ≤ strLen slug && strLen slug ≤ 160 && slugPatternOk slug &&
          strLen description ≤ 1024 && allowedUrl posterUrl &&
          categories.all isUUID then
        .ok ⟨id, sanitize name, sanitize slug, sanitize description,
             posterUrl, categories, parsedSeasons, i.published.getD false,
             i.featured.getD false, createdAt, updatedAt⟩
      else .error "series validation failed"
  | _, _, _, _, _, _, _, _, _ => .error "series required field missing"

/-- Model constant for `new Date().getFullYear()` in the movie year bound. -/
def currentYear : Int := 2026

/-- Model of `movieSchema.parse` (src/validation/schemas.ts:82-109). -/
def movieFromInput (i : MovieInput) : Except String Movie :=
  match i.id, i.title, i.slug, i.description, i.year, i.duration,
      i.posterUrl, i.streamUrl, i.categories, i.createdAt, i.updatedAt with
  | some id, some title, some slug, some description, some year,
      some duration, some posterUrl, some streamUrl, some categories,
      some createdAt, some updatedAt =>
    match subtitlesFromInput (i.subtitles.getD []) with
    | .error m => .error m
    | .ok subs =>
      if isUUID id && 1 ≤ strLen title && strLen title ≤ 160 &&
          1 ≤ strLen slug && strLen slug ≤ 160 && slugPatternOk slug &&
          strLen description ≤ 1024 && 1900 ≤ year &&
          year ≤ currentYear + 1 && 1 ≤ duration && allowedUrl posterUrl &&
          allowedUrl streamUrl && categories.all isUUID &&
          0 ≤ i.views.getD 0 then
        .ok ⟨id, sanitize title, sanitize slug, sanitize description, year,
             duration, posterUrl, streamUrl, subs, categories,
             i.published.getD false, i.featured.getD false, i.views.getD 0,
             createdAt, updatedAt⟩
      else .error "movie validation failed"
  | _, _, _, _, _, _, _, _, _, _, _ => .error "movie required field missing"

/-- Model of `historyEntrySchema.parse` (src/validation/schemas.ts:155-162). -/
def historyEntryFromInput (i : HistoryEntryInput) : Except String HistoryEntry :=
  match i.contentId, i.type, i.progress, i.lastWatched with
  | some contentId, some type, some progress, some lastWatched =>
    if 0 ≤ progress && progress ≤ 1 &&
        (match i.season with | some s => 1 ≤ s | none => true) &&
        (match i.episode with | some e => 1 ≤ e | none => true) then
      .ok ⟨contentId, type, progress, lastWatched, i.season, i.episode⟩
    else .error "history entry validation failed"
  | _, _, _, _ => .error "history entry required field missing"

def historyFromInput : List HistoryEntryInput → Except String (List HistoryEntry)
  | [] => .ok []
  | i :: rest =>
    match historyEntryFromInput i, historyFromInput rest with
    | .ok e, .ok es => .ok (e :: es)
    | .error m, _ => .error m
    | _, .error m => .error m

/-- Model of `usernameSchema.parse` checks (src/validation/schemas.ts:23-29):
3-64 characters matching `[a-zA-Z0-9_.-]+`, then sanitized. -/
def usernameOk (s : String) : Bool :=
  3 ≤ strLen s && strLen s ≤ 64 && usernamePatternOk s

/-- Model of `userSchema.parse` (src/validation/schemas.ts:164-172). -/
def userFromInput (i : UserInput) : Except String UserRecord :=
  match i.id, i.username, i.passwordHash, i.role, i.createdAt, i.updatedAt with
  | some id, some username, some passwordHash, some role, some createdAt,
      some updatedAt =>
    if isUUID id && usernameOk username then
      .ok ⟨id, sanitize username, passwordHash, role, i.active.getD true,
           createdAt, updatedAt⟩
    else .error "user validation failed"
  | _, _, _, _, _, _ => .error "user required field missing"

/-! ## Series merge engine (src/services/catalogService.ts:307-347) -/

/-- The episode-merge spread
`{ ...existingEpisode, ...parsedEpisode, lastUpdated: dayjs().toISOString() }`.
`parsedEpisode` is the output of `episodeSchema.parse`, so it carries every
schema key; the spread therefore takes every field from it and nothing
survives from `existingEpisode`. -/
def mergeFullEpisode (existingEpisode parsedEpisode : Episode) (now : String) :
    Episode :=
  { id := parsedEpisode.id
    title := parsedEpisode.title
    description := parsedEpisode.description
    season := parsedEpisode.season
    episode := parsedEpisode.episode
    duration := parsedEpisode.duration
    streamUrl := parsedEpisode.streamUrl
    subtitles := parsedEpisode.subtitles
    published := parsedEpisode.published
    views := parsedEpisode.views
    lastUpdated := now }

/-- Seeding of the `episodeMap` from the current season
(`for (const episode of current.episodes) episodeMap.set(...)`). -/
def episodeMapSeed (episodes : List Episode) : List (Int × Episode) :=
  episodes.foldl (fun m e => alistSet e.episode e m) []

/-- Seeding of the `seasonMap` from the existing seasons (the
`{ ...season, episodes: [...season.episodes] }` copy is value-identical in a
pure setting). -/
def seasonMapSeed (seasons : List Season) : List (Int × Season) :=
  seasons.foldl (fun m s => alistSet s.season s m) []

/-- Inner loop of `mergeSeasons`: fold the incoming episodes of one season
into the episode map.  Each incoming episode is re-parsed
(`episodeSchema.parse(incomingEpisode)`); an absent episode number is
inserted verbatim, a present one is overwritten by the spread. -/
def mergeEpisodesGo (now : String) :
    List (Int × Episode) → List EpisodeInput → Except String (List (Int × Episode))
  | em, [] => .ok em
  | em, e :: rest =>
    match episodeFromInput e with
    | .error m => .error m
    | .ok parsedEpisode =>
      match alistGet? parsedEpisode.episode em with
      | none =>
        mergeEpisodesGo now (alistSet parsedEpisode.episode parsedEpisode em) rest
      | some existingEpisode =>
        mergeEpisodesGo now
          (alistSet parsedEpisode.episode
            (mergeFullEpisode existingEpisode parsedEpisode now) em) rest

/-- Outer loop of `mergeSeasons`: fold the incoming seasons into the season
map.  `seasonSchema.parse(incoming)` runs first; an absent season number is
inserted verbatim, a present one has its episodes reconciled and re-sorted. -/
def mergeSeasonsGo (now : String) :
    List (Int × Season) → List SeasonInput → Except String (List (Int × Season))
  | m, [] => .ok m
  | m, inc :: rest =>
    match seasonFromInput inc with
    | .error msg => .error msg
    | .ok sanitizedSeason =>
      match alistGet? sanitizedSeason.season m with
      | none =>
        mergeSeasonsGo now (alistSet sanitizedSeason.season sanitizedSeason m) rest
      | some current =>
        match mergeEpisodesGo now (episodeMapSeed current.episodes)
            (sanitizedSeason.episodes.map Episode.toInput) with
        | .error msg => .error msg
        | .ok em =>
          let current2 : Season :=
            { current with
              episodes := sortByKey (fun e => e.episode) (em.map Prod.snd) }
          mergeSeasonsGo now (alistSet current2.season current2 m) rest

/-- `mergeSeasons(existingSeasons, incomingSeasons)`
(src/services/catalogService.ts:307-347).  The per-episode
`dayjs().toISOString()` stamps are modelled by the single `now` parameter. -/
def mergeSeasons (existingSeasons : List Season)
    (incomingSeasons : List SeasonInput) (now : String) :
    Except String (List Season) :=
  match mergeSeasonsGo now (seasonMapSeed existingSeasons) incomingSeasons with
  | .error msg => .error msg
  | .ok m => .ok (sortByKey (fun s => s.season) (m.map Prod.snd))

/-! ## Series service operations (src/services/catalogService.ts) -/

def defaultEpisode : Episode :=
  ⟨"", "", "", 0, 0, 0, "", [], false, 0, ""⟩

def defaultSeason : Season :=
  ⟨0, []⟩

def defaultMovie : Movie :=
  ⟨"", "", "", "", 0, 0, "", "", [], [], false, false, 0, "", ""⟩

/-- The payload type of `mergeEpisode` (src/services/catalogService.ts:234-243):
all fields are required by its TypeScript signature. -/
structure EpisodePayload where
  title : String
  description : String
  season : Int
  episode : Int
  duration : Int
  streamUrl : String
  subtitles : List Subtitle
  published : Bool
deriving Repr, DecidableEq

/-- The object `{ ...episodePayload, id: randomUUID(), lastUpdated: now,
views: 0 }` handed to `episodeSchema.parse` when a new episode is inserted. -/
def EpisodePayload.newEpisodeInput (p : EpisodePayload) (freshId now : String) :
    EpisodeInput :=
  ⟨some freshId, some p.title, some p.description, some p.season,
   some p.episode, some p.duration, some p.streamUrl,
   some (p.subtitles.map Subtitle.toInput), some p.published, some (0 : Int),
   some now⟩

/-- The object `{ ...season.episodes[episodeIndex], ...episodePayload,
lastUpdated: now }` handed to `episodeSchema.parse` when an existing episode
is overwritten: the payload supplies every key except `id` and `views`,
which survive from the stored episode. -/
def EpisodePayload.overwriteInput (p : EpisodePayload) (old : Episode)
    (now : String) : EpisodeInput :=
  ⟨some old.id, some p.title, some p.description, some p.season,
   some p.episode, some p.duration, some p.streamUrl,
   some (p.subtitles.map Subtitle.toInput), some p.published, some old.views,
   some now⟩

/-- `mergeEpisode(slug, episodePayload)` (src/services/catalogService.ts:232-290)
acting on the series document read for `slug` (the service throws
`Series not found` before reaching this logic when the file is absent). -/
def mergeEpisode (existing : Series) (payload : EpisodePayload)
    (freshId now : String) : Except String Series :=
  match existing.seasons.findIdx? (fun s => s.season == payload.season) with
  | none =>
    match episodeFromInput (payload.newEpisodeInput freshId now) with
    | .error m => .error m
    | .ok ep =>
      match seasonFromInput ⟨some payload.season, some [ep.toInput]⟩ with
      | .error m => .error m
      | .ok newSeason =>
        .ok { existing with
              seasons := sortByKey (fun s => s.season)
                (existing.seasons ++ [newSeason])
              updatedAt := now }
  | some seasonIndex =>
    let season := existing.seasons.getD seasonIndex defaultSeason
    match season.episodes.findIdx? (fun e => e.episode == payload.episode) with
    | none =>
      match episodeFromInput (payload.newEpisodeInput freshId now) with
      | .error m => .error m
      | .ok ep =>
        let season2 : Season :=
          { season with
            episodes := sortByKey (fun e => e.episode) (season.episodes ++ [ep]) }
        .ok { existing with
              seasons := sortByKey (fun s => s.season)
                (existing.seasons.set seasonIndex season2)
              updatedAt := now }
    | some episodeIndex =>
      let old := season.episodes.getD episodeIndex defaultEpisode
      match episodeFromInput (payload.overwriteInput old now) with
      | .error m => .error m
      | .ok ep =>
        let season2 : Season :=
          { season with
            episodes := sortByKey (fun e => e.episode)
              (season.episodes.set episodeIndex ep) }
        .ok { existing with
              seasons := sortByKey (fun s => s.season)
                (existing.seasons.set seasonIndex season2)
              updatedAt := now }

/-- `incrementSeriesView(slug, season, episodeNumber)`
(src/services/catalogService.ts:292-305) acting on the series document read
for `slug`; an absent slug is a silent no-op before this logic runs.  The
first season/episode with the matching number is updated (`Array.find`). -/
def incrementSeriesView (series : Series) (season episodeNumber : Int)
    (now : String) : Series :=
  match series.seasons.findIdx? (fun s => s.season == season) with
  | none => series
  | some i =>
    let targetSeason := series.seasons.getD i defaultSeason
    match targetSeason.episodes.findIdx? (fun e => e.episode == episodeNumber) with
    | none => series
    | some j =>
      let ep := targetSeason.episodes.getD j defaultEpisode
      { series with
        seasons := series.seasons.set i
          { targetSeason with
            episodes := targetSeason.episodes.set j
              { ep with views := ep.views + 1, lastUpdated := now } } }

/-- The payload type of `createOrMergeSeries`
(`Omit<Series, 'id' | 'createdAt' | 'updatedAt'> & { id?: string }`).  The
nested seasons are re-validated by the merge engine and by
`seriesSchema.parse`, so they are kept as raw input objects. -/
structure SeriesCreatePayload where
  id : Option String
  name : String
  slug : String
  description : String
  posterUrl : String
  categories : List String
  seasons : List SeasonInput
  published : Bool
  featured : Bool
deriving Repr, DecidableEq

/-- `createOrMergeSeries(payload)` (src/services/catalogService.ts:183-215)
acting on the document currently stored under the normalized slug (`none`
when no such file exists).  Returns the saved series together with the file
key it is saved under (`saveSeries` keys the file by `series.slug`). -/
def createOrMergeSeries (existing : Option Series)
    (payload : SeriesCreatePayload) (freshId now : String) :
    Except String (Series × String) :=
  let slug := slugifyStrict (if payload.slug == "" then payload.name else payload.slug)
  match existing with
  | some ex =>
    match mergeSeasons ex.seasons payload.seasons now with
    | .error m => .error m
    | .ok mergedSeasons =>
      match seriesFromInput
          ⟨some ex.id, some payload.name, some slug, some payload.description,
           some payload.posterUrl, some payload.categories,
           some (mergedSeasons.map Season.toInput), some payload.published,
           some payload.featured, some ex.createdAt, some now⟩ with
      | .error m => .error m
      | .ok s => .ok (s, s.slug)
  | none =>
    match seriesFromInput
        ⟨some (payload.id.getD freshId), some payload.name, some slug,
         some payload.description, some payload.posterUrl,
         some payload.categories, some payload.seasons, some payload.published,
         some payload.featured, some now, some now⟩ with
    | .error m => .error m
    | .ok s => .ok (s, s.slug)

/-! ## Movie service operations (src/services/catalogService.ts:96-142) -/

/-- The payload type of `createMovie`
(`Omit<Movie, 'id' | 'createdAt' | 'updatedAt' | 'views'>`), kept as raw
input fields since `movieSchema.parse` is the runtime gatekeeper. -/
structure MovieCreatePayload where
  title : Option String
  slug : Option String
  description : Option String
  year : Option Int
  duration : Option Int
  posterUrl : Option String
  streamUrl : Option String
  subtitles : Option (List SubtitleInput)
  categories : Option (List String)
  published : Option Bool
  featured : Option Bool
deriving Repr, DecidableEq

/-- `createMovie(payload)` acting on the stored movie list.  The movie is
parsed first; a duplicate slug then fails with the conflict error before
anything is written; otherwise the movie is appended and the list re-sorted
by title (`localeCompare` modelled as the string order). -/
def createMovie (payload : MovieCreatePayload) (movies : List Movie)
    (freshId now : String) : Except String (Movie × List Movie) :=
  match movieFromInput
      ⟨some freshId, payload.title, payload.slug, payload.description,
       payload.year, payload.duration, payload.posterUrl, payload.streamUrl,
       payload.subtitles, payload.categories, payload.published,
       payload.featured, some (0 : Int), some now, some now⟩ with
  | .error m => .error m
  | .ok movie =>
    if movies.any fun existing => existing.slug == movie.slug then
      .error "Movie slug already exists"
    else .ok (movie, sortByKey (fun m => m.title) (movies ++ [movie]))

/-- The spread `{ ...movies[index], ...update, updatedAt: now }` of
`updateMovie`: every key present in the partial update overwrites the stored
field, and `updatedAt` is then forced to the current time. -/
def movieUpdateInput (old : Movie) (update : MovieInput) (now : String) :
    MovieInput :=
  ⟨some (update.id.getD old.id), some (update.title.getD old.title),
   some (update.slug.getD old.slug),
   some (update.description.getD old.description),
   some (update.year.getD old.year), some (update.duration.getD old.duration),
   some (update.posterUrl.getD old.posterUrl),
   some (update.streamUrl.getD old.streamUrl),
   some (update.subtitles.getD (old.subtitles.map Subtitle.toInput)),
   some (update.categories.getD old.categories),
   some (update.published.getD old.published),
   some (update.featured.getD old.featured),
   some (update.views.getD old.views),
   some (update.createdAt.getD old.createdAt), some now⟩

/-- `updateMovie(id, update)` (src/services/catalogService.ts:115-125): find
by id, merge the partial update, re-validate, store in place (no re-sort and
no slug-uniqueness check on this path). -/
def updateMovie (movies : List Movie) (id : String) (update : MovieInput)
    (now : String) : Except String (Movie × List Movie) :=
  match movies.findIdx? (fun movie => movie.id == id) with
  | none => .error "Movie not found"
  | some index =>
    let old := movies.getD index defaultMovie
    match movieFromInput (movieUpdateInput old update now) with
    | .error m => .error m
    | .ok updated => .ok (updated, movies.set index updated)

/-- `deleteMovie(id)` (src/services/catalogService.ts:127-131). -/
def deleteMovie (movies : List Movie) (id : String) : List Movie :=
  movies.filter fun movie => !(movie.id == id)

/-- `incrementMovieView(id)` (src/services/catalogService.ts:133-142): a
silent no-op when the id is absent, otherwise bump `views` and re-stamp the
movie's `updatedAt`. -/
def incrementMovieView (movies : List Movie) (id : String) (now : String) :
    List Movie :=
  match movies.findIdx? (fun movie => movie.id == id) with
  | none => movies
  | some index =>
    let old := movies.getD index defaultMovie
    movies.set index { old with views := old.views + 1, updatedAt := now }

/-! ## User service operations (src/services/userService.ts) -/

/-- The payload of `createUser`; `createUserSchema` requires username and
password and defaults the role to `user`. -/
structure CreateUserPayload where
  username : String
  password : String
  role : Option Role
deriving Repr, DecidableEq

/-- `findUserByUsername(username)`: the admin singleton is consulted first,
then the user list (src/services/userService.ts:247-254). -/
def findUserByUsername (admin : Option UserRecord) (users : List UserRecord)
    (username : String) : Option UserRecord :=
  match admin with
  | some a =>
    if a.username == username then some a
    else users.find? fun u => u.username == username
  | none => users.find? fun u => u.username == username

/-- `createUser(payload)` (src/services/userService.ts:256-289) acting on the
admin singleton and the user list.  Returns the created user together with
the new admin-file and users-file contents; an admin-role user overwrites
the admin file, any other role is appended (unsorted) to the user list. -/
def createUser (admin : Option UserRecord) (users : List UserRecord)
    (payload : CreateUserPayload) (freshId passwordHash now : String) :
    Except String (UserRecord × Option UserRecord × List UserRecord) :=
  if usernameOk payload.username && 8 ≤ strLen payload.password &&
      strLen payload.password ≤ 128 then
    let parsedUsername := sanitize payload.username
    let role := payload.role.getD Role.user
    if (findUserByUsername admin users parsedUsername).isSome then
      .error "Username already exists"
    else
      match userFromInput
          ⟨some freshId, some parsedUsername, some passwordHash, some role,
           some true, some now, some now⟩ with
      | .error m => .error m
      | .ok user =>
        match user.role with
        | Role.admin => .ok (user, some user, users)
        | Role.user => .ok (user, admin, users ++ [user])
  else .error "invalid user payload"

/-! ## Watch history (src/services/userService.ts:344-364) -/

/-- `appendHistory(username, entry)` acting on the stored history list of
that user: the stored array is re-validated, every entry with the incoming
`contentId` is removed, and the new entry is unshifted to the front. -/
def appendHistory (stored : List HistoryEntryInput) (entry : HistoryEntry) :
    Except String (List HistoryEntry) :=
  match historyFromInput stored with
  | .error m => .error m
  | .ok history =>
    .ok (entry :: history.filter fun item => !(item.contentId == entry.contentId))

/-- Episode numbers strictly ascending within a season (§3 invariant). -/
@[reducible] def EpisodesStrict (q : Season) : Prop :=
  q.episodes.Pairwise fun a b => a.episode < b.episode

/-- Season numbers strictly ascending (§3 invariant). -/
@[reducible] def SeasonsStrict (l : List Season) : Prop :=
  l.Pairwise fun a b => a.season < b.season

/-- The §3 ordering invariant for a whole series document. -/
@[reducible] def SeriesInv (S : Series) : Prop :=
  SeasonsStrict S.seasons ∧ ∀ q ∈ S.seasons, EpisodesStrict q

/-- The shape of an episode freshly written from a `mergeEpisode` payload:
every schema field other than identity, view count and timestamp comes from
the (sanitized) payload. -/
def EpPayloadShape (ep : Episode) (p : EpisodePayload) : Prop :=
  ep.title = sanitize p.title ∧ ep.description = sanitize p.description ∧
  ep.season = p.season ∧ ep.episode = p.episode ∧ ep.duration = p.duration ∧
  ep.streamUrl = p.streamUrl ∧
  subtitlesFromInput (p.subtitles.map Subtitle.toInput) = .ok ep.subtitles ∧
  ep.published = p.published

/-- Re-stamping the timestamps of one episode (and the series `updatedAt`)
without touching anything else. -/
def stampEpisode (S : Series) (seasonNum episodeNum : Int) (t : String) : Series :=
  { S with
    updatedAt := t
    seasons := S.seasons.map fun q =>
      if q.season = seasonNum then
        { q with episodes := q.episodes.map fun e =>
            if e.episode = episodeNum then { e with lastUpdated := t } else e }
      else q }

def alistKeys {α : Type} (m : List (Int × α)) : List Int := m.map Prod.fst

/-- Key coherence: every entry of the map is stored under the key computed
from its value. -/
def AKeyOk {α : Type} (key : α → Int) (m : List (Int × α)) : Prop :=
  ∀ p ∈ m, key p.2 = p.1

/-! ## Concrete fixtures used by the claim witnesses and counterexamples -/

def HistoryEntry.toInput (e : HistoryEntry) : HistoryEntryInput :=
  ⟨some e.contentId, some e.type, some e.progress, some e.lastWatched,
   e.season, e.episode⟩

def uuidA : String := "00000000-0000-4000-8000-00000000000a"

def uuidB : String := "00000000-0000-4000-8000-00000000000b"

def uuidC : String := "00000000-0000-4000-8000-00000000000c"

def urlA : String := "https://example.com/a.mp4"

def epA : Episode := ⟨uuidA, "A", "", 1, 1, 10, urlA, [], true, 0, "t0"⟩

def ep1 : Episode := ⟨uuidA, "E1", "", 1, 1, 10, urlA, [], false, 0, "t0"⟩

def ep2 : Episode := ⟨uuidB, "E2", "", 1, 2, 10, urlA, [], false, 0, "t0"⟩

def c1Seasons : List Season := [⟨1, [epA]⟩]

/-- The claim's own example: an incoming episode payload carrying only
`duration`. -/
def c1IncPartial : SeasonInput :=
  ⟨some 1, some [⟨none, none, none, none, none, some 20, none, none, none,
    none, none⟩]⟩

/-- An incoming payload with all required fields but `published` (and
`subtitles`, `views`) omitted. -/
def c1IncFull : SeasonInput :=
  ⟨some 1, some [⟨some uuidA, some "A", some "", some 1, some 1, some 20,
    some urlA, none, none, none, some "t1"⟩]⟩

def c1Ein : EpisodeInput :=
  ⟨some uuidB, some "B", some "", some 1, some 1, some 20, some urlA, none,
   none, none, some "t1"⟩

def c1PE : Episode := ⟨uuidB, "B", "", 1, 1, 20, urlA, [], false, 0, "t1"⟩

def epX : Episode := ⟨uuidB, "X", "", 2, 1, 10, urlA, [], false, 0, "t0"⟩

def c3S : Series :=
  ⟨uuidA, "S", "s", "", urlA, [], [⟨1, [⟨uuidA, "A", "", 1, 1, 10, urlA, [],
    false, 0, "t0"⟩]⟩], false, false, "t0", "t0"⟩

def c3P : EpisodePayload := ⟨"T", "", 1, 2, 30, urlA, [], true⟩

def c3S1 : Series :=
  ⟨uuidA, "S", "s", "", urlA, [], [⟨1, [⟨uuidA, "A", "", 1, 1, 10, urlA, [],
    false, 0, "t0"⟩, ⟨uuidB, "T", "", 1, 2, 30, urlA, [], true, 0, "t1"⟩]⟩],
   false, false, "t0", "t1"⟩

def c3S2 : Series :=
  ⟨uuidA, "S", "s", "", urlA, [], [⟨1, [⟨uuidA, "A", "", 1, 1, 10, urlA, [],
    false, 0, "t0"⟩, ⟨uuidB, "T", "", 1, 2, 30, urlA, [], true, 0, "t2"⟩]⟩],
   false, false, "t0", "t2"⟩

def c4E1 : HistoryEntry := ⟨"m1", StreamType.movie, 1, "w1", none, none⟩

def c4E2 : HistoryEntry := ⟨"m2", StreamType.movie, 0, "w0", none, none⟩

def c4New : HistoryEntry := ⟨"m1", StreamType.movie, 0, "w2", none, none⟩

def c4Stored : List HistoryEntryInput := [c4E1.toInput, c4E2.toInput]

def c5MP : MovieCreatePayload :=
  ⟨some "Film A", some "film-a", some "", some 2000, some 10, some urlA,
   some urlA, some [], some [], some false, some false⟩

def c5M1 : Movie :=
  ⟨uuidA, "Old", "film-a", "", 2000, 10, urlA, urlA, [], [], false, false, 0,
   "t0", "t0"⟩

def c5Movies : List Movie := [c5M1]

def c5NewMovie : Movie :=
  ⟨uuidC, "Film A", "film-a", "", 2000, 10, urlA, urlA, [], [], false, false,
   0, "t5", "t5"⟩

def c5Admin : UserRecord := ⟨uuidA, "admin", "h0", Role.admin, true, "t0", "t0"⟩

def c5UP : CreateUserPayload := ⟨"admin", "password1", none⟩

def c6M1 : Movie :=
  ⟨uuidA, "A", "a", "", 2000, 10, urlA, urlA, [], [], false, false, 0, "t0",
   "t0"⟩

def c6M2 : Movie :=
  ⟨uuidB, "B", "dup", "", 2000, 10, urlA, urlA, [], [], false, false, 0, "t0",
   "t0"⟩

def c6Movies : List Movie := [c6M1, c6M2]

/-- A partial movie update that only changes the slug (to one already taken
by another movie). -/
def c6Upd : MovieInput :=
  ⟨none, none, some "dup", none, none, none, none, none, none, none, none,
   none, none, none, none⟩

def c6M1dup : Movie :=
  ⟨uuidA, "A", "dup", "", 2000, 10, urlA, urlA, [], [], false, false, 0, "t0",
   "t2"⟩

def c6CP : MovieCreatePayload :=
  ⟨some "New", some "new-movie", some "", some 2000, some 10, some urlA,
   some urlA, some [], some [], some false, some false⟩

def c6CMovie : Movie :=
  ⟨uuidC, "New", "new-movie", "", 2000, 10, urlA, urlA, [], [], false, false,
   0, "t3", "t3"⟩

/-- A partial movie update that only changes the title. -/
def c6UpdT : MovieInput :=
  ⟨none, some "AA", none, none, none, none, none, none, none, none, none,
   none, none, none, none⟩

def c6M1T : Movie :=
  ⟨uuidA, "AA", "a", "", 2000, 10, urlA, urlA, [], [], false, false, 0, "t0",
   "t4"⟩

def c7Ex : Series :=
  ⟨uuidA, "Old Name", "old", "", urlA, [], [], false, false, "t0", "t0"⟩

def c7P : SeriesCreatePayload :=
  ⟨none, "My Show", "", "", urlA, [], [], false, false⟩

def c7Res : Series :=
  ⟨uuidA, "My Show", "my-show", "", urlA, [], [], false, false, "t0", "t7"⟩

def c8S : Series :=
  ⟨uuidA, "S", "s", "", urlA, [], [⟨1, [ep1]⟩], false, false, "t0", "t0"⟩

def c8P : EpisodePayload := ⟨"T8", "", 1, 2, 30, urlA, [], true⟩

def c8S1 : Series :=
  ⟨uuidA, "S", "s", "", urlA, [], [⟨1, [ep1, ⟨uuidC, "T8", "", 1, 2, 30,
    urlA, [], true, 0, "t8"⟩]⟩], false, false, "t0", "t8"⟩

def c9M1 : Movie :=
  ⟨uuidA, "A", "a", "", 2000, 10, urlA, urlA, [], [], false, false, 0, "t0",
   "t0"⟩

def c9M2 : Movie :=
  ⟨uuidB, "B", "b", "", 2000, 10, urlA, urlA, [], [], false, false, 3, "t0",
   "t0"⟩

def c9Movies : List Movie := [c9M1, c9M2]

def c9S : Series :=
  ⟨uuidB, "S9", "s9", "", urlA, [], [⟨1, [ep1, ep2]⟩], false, false, "t0",
   "t0"⟩

/-! ## Lemmas: the sanitizer -/

theorem mem_stripTags {c : Char} :
    ∀ {b : Bool} {l : List Char}, c ∈ stripTags b l → c ∈ l ∧ c ≠ '<' ∧ c ≠ '>' := by
  intro b l
  induction l generalizing b with
  | nil => intro h; cases b <;> simp [stripTags] at h
  | cons x xs ih =>
    intro h
    cases b with
    | true =>
      rw [stripTags] at h
      split at h
      · rcases ih h with ⟨hm, h1, h2⟩
        exact ⟨List.mem_cons_of_mem _ hm, h1, h2⟩
      · rcases ih h with ⟨hm, h1, h2⟩
        exact ⟨List.mem_cons_of_mem _ hm, h1, h2⟩
    | false =>
      rw [stripTags] at h
      split at h
      · rcases ih h with ⟨hm, h1, h2⟩
        exact ⟨List.mem_cons_of_mem _ hm, h1, h2⟩
      · split at h
        · rcases ih h with ⟨hm, h1, h2⟩
          exact ⟨List.mem_cons_of_mem _ hm, h1, h2⟩
        · rcases List.mem_cons.mp h with h0 | h0
          · subst h0
            refine ⟨List.mem_cons_self _ _, ?_, ?_⟩ <;> simp_all
          · rcases ih h0 with ⟨hm, h1, h2⟩
            exact ⟨List.mem_cons_of_mem _ hm, h1, h2⟩

theorem stripTags_eq_self {l : List Char}
    (h : ∀ c ∈ l, c ≠ '<' ∧ c ≠ '>') : stripTags false l = l := by
  induction l with
  | nil => rfl
  | cons x xs ih =>
    rcases h x (List.mem_cons_self _ _) with ⟨h1, h2⟩
    rw [stripTags, if_neg h1, if_neg h2,
      ih fun c hc => h c (List.mem_cons_of_mem _ hc)]

theorem mem_dropTrailingWs {c : Char} :
    ∀ {l : List Char}, c ∈ dropTrailingWs l → c ∈ l := by
  intro l
  induction l with
  | nil => intro h; cases h
  | cons x xs ih =>
    intro h
    rcases hd : dropTrailingWs xs with _ | ⟨d, ds⟩ <;>
      simp only [dropTrailingWs, hd] at h
    · split at h
      · cases h
      · rcases List.mem_cons.mp h with h0 | h0
        · exact h0 ▸ List.mem_cons_self _ _
        · cases h0
    · rcases List.mem_cons.mp h with h0 | h0
      · exact h0 ▸ List.mem_cons_self _ _
      · exact List.mem_cons_of_mem _ (ih (hd ▸ h0))

theorem getLast?_dropTrailingWs {c : Char} :
    ∀ {l : List Char}, (dropTrailingWs l).getLast? = some c → isWsChar c = false := by
  intro l
  induction l with
  | nil => intro h; cases h
  | cons x xs ih =>
    intro h
    rcases hd : dropTrailingWs xs with _ | ⟨d, ds⟩ <;>
      simp only [dropTrailingWs, hd] at h
    · split at h
      · cases h
      · rw [List.getLast?_singleton] at h
        cases h
        simp_all
    · rw [List.getLast?_cons_cons] at h
      exact ih (hd ▸ h)

theorem dropTrailingWs_cons_cons {x d : Char} {xs ds : List Char}
    (hd : dropTrailingWs xs = d :: ds) :
    dropTrailingWs (x :: xs) = x :: d :: ds := by
  simp only [dropTrailingWs, hd]

theorem dropTrailingWs_eq_self :
    ∀ {l : List Char}, (∀ c, l.getLast? = some c → isWsChar c = false) →
      dropTrailingWs l = l := by
  intro l
  induction l with
  | nil => intro _; rfl
  | cons x xs ih =>
    intro h
    rcases hxs : xs with _ | ⟨y, ys⟩
    · subst hxs
      have hx := h x (by simp)
      simp only [dropTrailingWs, hx]
      simp
    · have hxs' : dropTrailingWs xs = xs := by
        apply ih
        intro c hc
        apply h
        rw [hxs] at hc ⊢
        rw [List.getLast?_cons_cons]
        exact hc
      rw [hxs] at hxs'
      exact dropTrailingWs_cons_cons hxs'

theorem dropWhile_eq_self_of_head {p : Char → Bool} {l : List Char}
    (h : ∀ c, l.head? = some c → p c = false) : l.dropWhile p = l := by
  rcases l with _ | ⟨x, xs⟩
  · rfl
  · rw [List.dropWhile_cons, if_neg (by simp [h x rfl])]

theorem head?_dropWhile {p : Char → Bool} :
    ∀ {l : List Char} {c : Char}, (l.dropWhile p).head? = some c → p c = false := by
  intro l
  induction l with
  | nil => intro c h; cases h
  | cons x xs ih =>
    intro c h
    rw [List.dropWhile_cons] at h
    split at h
    · exact ih h
    · cases h
      simp_all

theorem getLast?_dropWhile {p : Char → Bool} :
    ∀ {l : List Char}, (∀ c, l.getLast? = some c → p c = false) →
      ∀ c, (l.dropWhile p).getLast? = some c → p c = false := by
  intro l
  induction l with
  | nil => intro _ c h; cases h
  | cons x xs ih =>
    intro h c hc
    rw [List.dropWhile_cons] at hc
    split at hc
    · rcases hxs : xs with _ | ⟨y, ys⟩
      · rw [hxs] at hc; cases hc
      · apply ih _ c hc
        intro d hd
        apply h
        rw [hxs] at hd ⊢
        rw [List.getLast?_cons_cons, hd]
    · exact h c hc

/-- The character-level body of `sanitize`. -/
theorem sanitize_data (s : String) :
    (sanitize s).data = (dropTrailingWs (stripTags false s.data)).dropWhile isWsChar :=
  rfl

theorem mem_sanitize {c : Char} {s : String} (h : c ∈ (sanitize s).data) :
    c ∈ s.data ∧ c ≠ '<' ∧ c ≠ '>' := by
  rw [sanitize_data] at h
  have h1 := (List.dropWhile_sublist _).subset h
  exact mem_stripTags (mem_dropTrailingWs h1)

/-- Sanitizing is idempotent: the output has no markup brackets, no trailing
whitespace and no leading whitespace, so a second pass keeps it unchanged. -/
theorem sanitize_idem (s : String) : sanitize (sanitize s) = sanitize s := by
  apply String.ext
  rw [sanitize_data (sanitize s)]
  have hnotag : stripTags false (sanitize s).data = (sanitize s).data := by
    apply stripTags_eq_self
    intro c hc
    exact (mem_sanitize hc).2
  rw [hnotag]
  have hlast : ∀ c, (sanitize s).data.getLast? = some c → isWsChar c = false := by
    intro c hc
    rw [sanitize_data] at hc
    exact getLast?_dropWhile (fun d hd => getLast?_dropTrailingWs hd) c hc
  rw [dropTrailingWs_eq_self hlast]
  rw [sanitize_data]
  apply dropWhile_eq_self_of_head
  intro c hc
  exact head?_dropWhile hc

/-- Sanitizing a string with no markup brackets and no whitespace keeps it
unchanged. -/
theorem sanitize_eq_self {s : String}
    (h : ∀ c ∈ s.data, c ≠ '<' ∧ c ≠ '>' ∧ isWsChar c = false) : sanitize s = s := by
  apply String.ext
  rw [sanitize_data, stripTags_eq_self fun c hc => ⟨(h c hc).1, (h c hc).2.1⟩]
  have hlast : ∀ c, s.data.getLast? = some c → isWsChar c = false := by
    intro c hc
    exact (h c (List.mem_of_mem_getLast? hc)).2.2
  rw [dropTrailingWs_eq_self hlast]
  apply dropWhile_eq_self_of_head
  intro c hc
  exact (h c (List.mem_of_mem_head? hc)).2.2

/-! ## Lemmas: the slug alphabet -/

theorem mem_hyphenate {c : Char} :
    ∀ {l : List Char} {b : Bool}, c ∈ hyphenate b l →
      c = '-' ∨ (c ∈ l ∧ c ≠ ' ') := by
  intro l
  induction l with
  | nil => intro b h; cases h
  | cons x xs ih =>
    intro b h
    rw [hyphenate] at h
    by_cases hx : x = ' '
    · rw [if_pos hx] at h
      cases b with
      | true =>
        rw [if_pos rfl] at h
        rcases ih h with h1 | ⟨h1, h2⟩
        · exact Or.inl h1
        · exact Or.inr ⟨List.mem_cons_of_mem _ h1, h2⟩
      | false =>
        rw [if_neg (by simp)] at h
        rcases List.mem_cons.mp h with h0 | h0
        · exact Or.inl h0
        · rcases ih h0 with h1 | ⟨h1, h2⟩
          · exact Or.inl h1
          · exact Or.inr ⟨List.mem_cons_of_mem _ h1, h2⟩
    · rw [if_neg hx] at h
      rcases List.mem_cons.mp h with h0 | h0
      · subst h0
        exact Or.inr ⟨List.mem_cons_self _ _, hx⟩
      · rcases ih h0 with h1 | ⟨h1, h2⟩
        · exact Or.inl h1
        · exact Or.inr ⟨List.mem_cons_of_mem _ h1, h2⟩

theorem mem_slugMapChars {c : Char} :
    ∀ {l : List Char}, c ∈ slugMapChars l → isLowerAlnum c = true ∨ c = ' ' := by
  intro l
  induction l with
  | nil => intro h; cases h
  | cons x xs ih =>
    intro h
    rw [slugMapChars] at h
    split at h
    · rcases List.mem_cons.mp h with h0 | h0
      · subst h0; simp_all
      · exact ih h0
    · split at h
      · rcases List.mem_cons.mp h with h0 | h0
        · exact Or.inr h0
        · exact ih h0
      · exact ih h

theorem mem_slugifyStrict {c : Char} {s : String}
    (h : c ∈ (slugifyStrict s).data) : isSlugChar c = true := by
  have h0 : c ∈ hyphenate false
      ((dropTrailingWs (slugMapChars s.data)).dropWhile isWsChar) := h
  rcases mem_hyphenate h0 with h1 | ⟨h1, h2⟩
  · simp [isSlugChar, h1]
  · have h3 : c ∈ slugMapChars s.data :=
      mem_dropTrailingWs ((List.dropWhile_sublist _).subset h1)
    rcases mem_slugMapChars h3 with h4 | h4
    · simp [isSlugChar, h4]
    · exact absurd h4 h2

theorem slugChar_plain {c : Char} (h : isSlugChar c = true) :
    c ≠ '<' ∧ c ≠ '>' ∧ isWsChar c = false := by
  rw [isSlugChar, Bool.or_eq_true] at h
  rcases h with h | h
  · rw [isLowerAlnum, Bool.or_eq_true, Bool.and_eq_true, Bool.and_eq_true] at h
    refine ⟨?_, ?_, ?_⟩
    · rintro rfl
      rcases h with ⟨h1, h2⟩ | ⟨h1, h2⟩ <;> revert h1 h2 <;> decide
    · rintro rfl
      rcases h with ⟨h1, h2⟩ | ⟨h1, h2⟩ <;> revert h1 h2 <;> decide
    · rw [isWsChar]
      rcases h with ⟨h1, h2⟩ | ⟨h1, h2⟩ <;>
        · simp only [Bool.or_eq_false_iff, decide_eq_false_iff_not]
          refine ⟨⟨⟨?_, ?_⟩, ?_⟩, ?_⟩ <;> rintro rfl <;> revert h1 h2 <;> decide
  · rw [decide_eq_true_iff] at h
    subst h
    decide

/-- The zod `sanitizedString` transform keeps a normalized slug unchanged. -/
theorem sanitize_slugifyStrict (s : String) :
    sanitize (slugifyStrict s) = slugifyStrict s := by
  apply sanitize_eq_self
  intro c hc
  exact slugChar_plain (mem_slugifyStrict hc)

/-! ## Lemmas: the stable sort -/

theorem insertByKey_perm {α κ : Type} [LinearOrder κ] (key : α → κ) (x : α) :
    ∀ l : List α, List.Perm (insertByKey key x l) (x :: l) := by
  intro l
  induction l with
  | nil => exact List.Perm.refl _
  | cons y ys ih =>
    rw [insertByKey]
    split
    · exact (ih.cons y).trans (List.Perm.swap x y ys)
    · exact List.Perm.refl _

theorem sortByKey_perm {α κ : Type} [LinearOrder κ] (key : α → κ) :
    ∀ l : List α, List.Perm (sortByKey key l) l := by
  intro l
  induction l with
  | nil => exact List.Perm.refl _
  | cons x xs ih =>
    rw [sortByKey]
    exact (insertByKey_perm key x _).trans (ih.cons x)

theorem mem_sortByKey {α κ : Type} [LinearOrder κ] {key : α → κ} {a : α}
    {l : List α} : a ∈ sortByKey key l ↔ a ∈ l :=
  (sortByKey_perm key l).mem_iff

theorem mem_insertByKey {α κ : Type} [LinearOrder κ] {key : α → κ} {a x : α}
    {l : List α} : a ∈ insertByKey key x l ↔ a = x ∨ a ∈ l := by
  rw [(insertByKey_perm key x l).mem_iff, List.mem_cons]

theorem pairwise_insertByKey {α κ : Type} [LinearOrder κ] {key : α → κ} {x : α}
    {l : List α} (h : l.Pairwise fun a b => key a ≤ key b) :
    (insertByKey key x l).Pairwise fun a b => key a ≤ key b := by
  induction l with
  | nil => simp [insertByKey]
  | cons y ys ih =>
    rw [List.pairwise_cons] at h
    rw [insertByKey]
    split
    · rw [List.pairwise_cons]
      refine ⟨?_, ih h.2⟩
      intro z hz
      rcases mem_insertByKey.mp hz with hz | hz
      · subst hz; assumption
      · exact h.1 z hz
    · rw [List.pairwise_cons]
      refine ⟨?_, List.pairwise_cons.mpr h⟩
      intro z hz
      rcases List.mem_cons.mp hz with hz | hz
      · subst hz
        exact le_of_lt (lt_of_not_le (by assumption))
      · exact le_trans (le_of_lt (lt_of_not_le (by assumption))) (h.1 z hz)

theorem sortByKey_pairwise_le {α κ : Type} [LinearOrder κ] (key : α → κ) :
    ∀ l : List α, (sortByKey key l).Pairwise fun a b => key a ≤ key b := by
  intro l
  induction l with
  | nil => simp [sortByKey]
  | cons x xs ih =>
    rw [sortByKey]
    exact pairwise_insertByKey ih

theorem insertByKey_eq_cons {α κ : Type} [LinearOrder κ] {key : α → κ} {x : α}
    {l : List α} (h : ∀ y ∈ l, key x < key y) : insertByKey key x l = x :: l := by
  rcases l with _ | ⟨y, ys⟩
  · rfl
  · rw [insertByKey, if_neg (not_le.mpr (h y (List.mem_cons_self _ _)))]

/-- The stable sort leaves an already strictly sorted list unchanged. -/
theorem sortByKey_eq_self {α κ : Type} [LinearOrder κ] {key : α → κ} :
    ∀ {l : List α}, (l.Pairwise fun a b => key a < key b) → sortByKey key l = l := by
  intro l
  induction l with
  | nil => intro _; rfl
  | cons x xs ih =>
    intro h
    rw [List.pairwise_cons] at h
    rw [sortByKey, ih h.2]
    exact insertByKey_eq_cons h.1

/-- Sorting a list whose keys are pairwise distinct yields a strictly
ascending list. -/
theorem sortByKey_pairwise_lt {α κ : Type} [LinearOrder κ] {key : α → κ}
    {l : List α} (h : (l.map key).Nodup) :
    (sortByKey key l).Pairwise fun a b => key a < key b := by
  have hnd : ((sortByKey key l).map key).Nodup :=
    (((sortByKey_perm key l).map key).nodup_iff).mpr h
  have hne : (sortByKey key l).Pairwise fun a b => key a ≠ key b :=
    List.pairwise_map.mp hnd
  exact ((sortByKey_pairwise_le key l).and hne).imp
    fun hab => lt_of_le_of_ne hab.1 hab.2

/-! ## Lemmas: insertion-ordered maps -/

theorem mem_alistSet {α : Type} {p : Int × α} {k : Int} {v : α} :
    ∀ {m : List (Int × α)}, p ∈ alistSet k v m → p = (k, v) ∨ p ∈ m := by
  intro m
  induction m with
  | nil =>
    intro h
    rcases List.mem_cons.mp h with h | h
    · exact Or.inl h
    · cases h
  | cons q qs ih =>
    intro h
    rw [alistSet] at h
    split at h
    · rcases List.mem_cons.mp h with h | h
      · exact Or.inl h
      · exact Or.inr (List.mem_cons_of_mem _ h)
    · rcases List.mem_cons.mp h with h | h
      · exact Or.inr (h ▸ List.mem_cons_self _ _)
      · rcases ih h with h | h
        · exact Or.inl h
        · exact Or.inr (List.mem_cons_of_mem _ h)

theorem alistSet_of_mem {α : Type} {k : Int} {v : α} :
    ∀ {m : List (Int × α)}, k ∈ alistKeys m →
      alistKeys (alistSet k v m) = alistKeys m := by
  intro m
  induction m with
  | nil => intro h; cases h
  | cons q qs ih =>
    intro h
    rw [alistSet]
    split
    · simp only [alistKeys, List.map_cons]
      congr 1
      simp_all
    · rcases List.mem_cons.mp h with h | h
      · exact absurd h.symm (by assumption)
      · simp only [alistKeys, List.map_cons]
        congr 1
        exact ih h

theorem alistSet_of_not_mem {α : Type} {k : Int} {v : α} :
    ∀ {m : List (Int × α)}, k ∉ alistKeys m → alistSet k v m = m ++ [(k, v)] := by
  intro m
  induction m with
  | nil => intro _; rfl
  | cons q qs ih =>
    intro h
    have hq : ¬q.1 = k := by
      intro hq
      exact h (hq ▸ List.mem_map_of_mem Prod.fst (List.mem_cons_self _ _))
    rw [alistSet]
    cases q with
    | mk qk qv =>
      rw [if_neg hq, ih fun hm => h (List.mem_cons_of_mem _ hm)]
      rfl

theorem nodup_alistKeys_set {α : Type} {k : Int} {v : α} {m : List (Int × α)}
    (h : (alistKeys m).Nodup) : (alistKeys (alistSet k v m)).Nodup := by
  by_cases hk : k ∈ alistKeys m
  · rw [alistSet_of_mem hk]; exact h
  · rw [alistSet_of_not_mem hk]
    simp only [alistKeys, List.map_append]
    simp [List.nodup_append, h, hk, alistKeys] at *
    simp_all [alistKeys]

theorem alistGet?_none {α : Type} {k : Int} :
    ∀ {m : List (Int × α)}, alistGet? k m = none ↔ k ∉ alistKeys m := by
  intro m
  induction m with
  | nil => simp [alistGet?, alistKeys]
  | cons q qs ih =>
    rw [alistGet?]
    split
    · constructor
      · intro h; cases h
      · intro h
        exact absurd (by simp_all [alistKeys] : k ∈ alistKeys (q :: qs))
          (by simp_all)
    · rw [ih]
      simp only [alistKeys, List.map_cons, List.mem_cons]
      constructor
      · intro h hm
        rcases hm with hm | hm
        · exact absurd hm.symm (by assumption)
        · exact h hm
      · intro h hm
        exact h (Or.inr hm)

theorem alistGet?_some {α : Type} {k : Int} {v : α} :
    ∀ {m : List (Int × α)}, alistGet? k m = some v → (k, v) ∈ m := by
  intro m
  induction m with
  | nil => intro h; cases h
  | cons q qs ih =>
    intro h
    obtain ⟨qk, qv⟩ := q
    rw [alistGet?] at h
    split at h
    · cases h
      rename_i hkk
      rw [← hkk]
      exact List.mem_cons_self _ _
    · exact List.mem_cons_of_mem _ (ih h)

theorem akeyok_set {α : Type} {key : α → Int} {m : List (Int × α)} {k : Int}
    {v : α} (h : AKeyOk key m) (hv : key v = k) : AKeyOk key (alistSet k v m) := by
  intro p hp
  rcases mem_alistSet hp with hp | hp
  · subst hp; exact hv
  · exact h p hp

theorem akeyok_get {α : Type} {key : α → Int} {m : List (Int × α)} {k : Int}
    {v : α} (h : AKeyOk key m) (hg : alistGet? k m = some v) : key v = k :=
  h (k, v) (alistGet?_some hg)

theorem map_key_of_akeyok {α : Type} {key : α → Int} {m : List (Int × α)}
    (h : AKeyOk key m) : (m.map Prod.snd).map key = alistKeys m := by
  rw [List.map_map, alistKeys]
  exact List.map_congr_left h

/-- The values of a key-coherent map with distinct keys sort into a strictly
ascending list. -/
theorem sortByKey_values_lt {α : Type} {key : α → Int} {m : List (Int × α)}
    (hnd : (alistKeys m).Nodup) (hok : AKeyOk key m) :
    (sortByKey key (m.map Prod.snd)).Pairwise fun a b => key a < key b :=
  sortByKey_pairwise_lt (by rw [map_key_of_akeyok hok]; exact hnd)

theorem nodup_keys_foldl_set {α : Type} (key : α → Int) :
    ∀ (l : List α) (m0 : List (Int × α)), (alistKeys m0).Nodup →
      (alistKeys (l.foldl (fun m e => alistSet (key e) e m) m0)).Nodup := by
  intro l
  induction l with
  | nil => intro m0 h; exact h
  | cons x xs ih =>
    intro m0 h
    rw [List.foldl_cons]
    exact ih _ (nodup_alistKeys_set h)

theorem akeyok_foldl_set {α : Type} (key : α → Int) :
    ∀ (l : List α) (m0 : List (Int × α)), AKeyOk key m0 →
      AKeyOk key (l.foldl (fun m e => alistSet (key e) e m) m0) := by
  intro l
  induction l with
  | nil => intro m0 h; exact h
  | cons x xs ih =>
    intro m0 h
    rw [List.foldl_cons]
    exact ih _ (akeyok_set h rfl)

theorem pairwise_lt_nodup {α κ : Type} [LinearOrder κ] {key : α → κ}
    {l : List α} (h : l.Pairwise fun a b => key a < key b) :
    (l.map key).Nodup :=
  List.pairwise_map.mpr (h.imp fun hab => ne_of_lt hab)

theorem foldl_set_eq_append {α : Type} {key : α → Int} :
    ∀ (l : List α) (m0 : List (Int × α)),
      (alistKeys m0 ++ l.map key).Nodup →
      l.foldl (fun m e => alistSet (key e) e m) m0 =
        m0 ++ l.map fun x => (key x, x) := by
  intro l
  induction l with
  | nil => intro m0 _; simp
  | cons x xs ih =>
    intro m0 h
    have hx : key x ∉ alistKeys m0 := by
      intro hm
      rcases List.nodup_append.mp h with ⟨_, _, hdisj⟩
      exact hdisj hm (by simp)
    rw [List.foldl_cons, alistSet_of_not_mem hx]
    have h2 : (alistKeys (m0 ++ [(key x, x)]) ++ xs.map key).Nodup := by
      have : alistKeys (m0 ++ [(key x, x)]) = alistKeys m0 ++ [key x] := by
        simp [alistKeys]
      rw [this, List.append_assoc]
      simpa using h
    rw [ih _ h2, List.append_assoc]
    rfl

/-- Seeding an empty map from a list with distinct keys stores the list
itself, in order. -/
theorem foldl_set_eq_map {α : Type} {key : α → Int} {l : List α}
    (h : (l.map key).Nodup) :
    l.foldl (fun m e => alistSet (key e) e m) [] = l.map fun x => (key x, x) := by
  have := foldl_set_eq_append l [] (by simpa [alistKeys] using h)
  simpa using this

theorem alistGet?_map_pair_found {α : Type} {key : α → Int} {k : Int} {x0 : α} :
    ∀ {l : List α}, (l.map key).Nodup → x0 ∈ l → key x0 = k →
      alistGet? k (l.map fun x => (key x, x)) = some x0 := by
  intro l
  induction l with
  | nil => intro _ hm; cases hm
  | cons y ys ih =>
    intro hnd hm hk
    rw [List.map_cons, alistGet?]
    rcases List.mem_cons.mp hm with hm | hm
    · subst hm
      rw [if_pos hk]
    · have hyk : ¬key y = k := by
        intro hyk
        rw [List.map_cons, List.nodup_cons] at hnd
        exact hnd.1 (hyk ▸ hk ▸ List.mem_map_of_mem key hm)
      rw [if_neg hyk]
      exact ih (by rw [List.map_cons, List.nodup_cons] at hnd; exact hnd.2) hm hk

theorem alistSet_map_pair_values {α : Type} {key : α → Int} {k : Int} {v x0 : α} :
    ∀ {l : List α}, (l.map key).Nodup → x0 ∈ l → key x0 = k →
      (alistSet k v (l.map fun x => (key x, x))).map Prod.snd =
        l.map fun x => if key x = k then v else x := by
  intro l
  induction l with
  | nil => intro _ hm; cases hm
  | cons y ys ih =>
    intro hnd hm hk
    have hnd2 : (ys.map key).Nodup := by
      rw [List.map_cons, List.nodup_cons] at hnd
      exact hnd.2
    rw [List.map_cons, alistSet]
    by_cases hyk : key y = k
    · rw [if_pos hyk, List.map_cons, List.map_cons, if_pos hyk]
      congr 1
      have : ∀ x ∈ ys, (if key x = k then v else x) = x := by
        intro x hx
        rw [if_neg]
        intro hxk
        rw [List.map_cons, List.nodup_cons] at hnd
        have : key x ∈ ys.map key := List.mem_map_of_mem key hx
        rw [hxk, ← hyk] at this
        exact hnd.1 this
      rw [List.map_map]
      exact ((List.map_congr_left this).symm).trans (by simp)
    · rw [if_neg hyk, List.map_cons, List.map_cons, if_neg hyk]
      congr 1
      rcases List.mem_cons.mp hm with hm | hm
      · exact absurd (hm ▸ hk) hyk
      · exact ih hnd2 hm hk

theorem mem_foldl_set {α : Type} (key : α → Int) :
    ∀ (l : List α) (m0 : List (Int × α)) (p : Int × α),
      p ∈ l.foldl (fun m e => alistSet (key e) e m) m0 → p ∈ m0 ∨ p.2 ∈ l := by
  intro l
  induction l with
  | nil => intro m0 p h; exact Or.inl h
  | cons x xs ih =>
    intro m0 p h
    rw [List.foldl_cons] at h
    rcases ih _ p h with h | h
    · rcases mem_alistSet h with h | h
      · subst h; exact Or.inr (List.mem_cons_self _ _)
      · exact Or.inl h
    · exact Or.inr (List.mem_cons_of_mem _ h)

/-! ## Lemmas: schema parsing -/

theorem subtitleFromInput_ok {i : SubtitleInput} {s : Subtitle}
    (h : subtitleFromInput i = .ok s) :
    ∃ lang label url, i.lang = some lang ∧ i.label = some label ∧
      i.url = some url ∧ s = ⟨sanitize lang, sanitize label, url⟩ := by
  unfold subtitleFromInput at h
  split at h
  · split at h
    · cases h
      exact ⟨_, _, _, by assumption, by assumption, by assumption, rfl⟩
    · cases h
  · cases h

theorem subtitlesFromInput_sanitized :
    ∀ {li : List SubtitleInput} {ls : List Subtitle},
      subtitlesFromInput li = .ok ls →
      ∀ st ∈ ls, sanitize st.lang = st.lang ∧ sanitize st.label = st.label := by
  intro li
  induction li with
  | nil =>
    intro ls h st hst
    cases h
    cases hst
  | cons i rest ih =>
    intro ls h st hst
    rcases hi : subtitleFromInput i with m | s <;>
      rcases hrest : subtitlesFromInput rest with m2 | ss <;>
        simp only [subtitlesFromInput, hi, hrest] at h <;> cases h
    rcases List.mem_cons.mp hst with hm | hm
    · subst hm
      rcases subtitleFromInput_ok hi with ⟨lang, label, url, _, _, _, hsv⟩
      subst hsv
      exact ⟨by rw [sanitize_idem], by rw [sanitize_idem]⟩
    · exact ih hrest st hm

theorem subtitleFromInput_toInput {s t : Subtitle}
    (hlang : sanitize s.lang = s.lang) (hlabel : sanitize s.label = s.label)
    (h : subtitleFromInput s.toInput = .ok t) : t = s := by
  simp only [Subtitle.toInput, subtitleFromInput] at h
  split at h
  · cases h
    cases s
    simp_all
  · cases h

theorem subtitlesFromInput_toInput :
    ∀ {ls ls2 : List Subtitle},
      (∀ st ∈ ls, sanitize st.lang = st.lang ∧ sanitize st.label = st.label) →
      subtitlesFromInput (ls.map Subtitle.toInput) = .ok ls2 → ls2 = ls := by
  intro ls
  induction ls with
  | nil =>
    intro ls2 _ h
    cases h
    rfl
  | cons s rest ih =>
    intro ls2 hsan h
    rw [List.map_cons] at h
    rcases hs : subtitleFromInput s.toInput with m | t <;>
      rcases hrest : subtitlesFromInput (rest.map Subtitle.toInput) with m2 | ts <;>
        simp only [subtitlesFromInput, hs, hrest] at h <;> cases h
    have hfix := hsan s (List.mem_cons_self _ _)
    rw [subtitleFromInput_toInput hfix.1 hfix.2 hs,
      ih (fun st hst => hsan st (List.mem_cons_of_mem _ hst)) hrest]

theorem episodeFromInput_ok {i : EpisodeInput} {e : Episode}
    (h : episodeFromInput i = .ok e) :
    ∃ id title description season episode duration streamUrl lastUpdated subs,
      i.id = some id ∧ i.title = some title ∧ i.description = some description ∧
      i.season = some season ∧ i.episode = some episode ∧
      i.duration = some duration ∧ i.streamUrl = some streamUrl ∧
      i.lastUpdated = some lastUpdated ∧
      subtitlesFromInput (i.subtitles.getD []) = .ok subs ∧
      e = ⟨id, sanitize title, sanitize description, season, episode, duration,
           streamUrl, subs, i.published.getD false, i.views.getD 0,
           lastUpdated⟩ := by
  unfold episodeFromInput at h
  split at h
  · rename_i id title description season episode duration streamUrl
      lastUpdated h1 h2 h3 h4 h5 h6 h7 h8
    split at h
    · cases h
    · split at h
      · cases h
        exact ⟨id, title, description, season, episode, duration, streamUrl,
          lastUpdated, _, h1, h2, h3, h4, h5, h6, h7, h8, by assumption, rfl⟩
      · cases h
  · cases h

/-- A parsed episode is a fixed point of the sanitizer on its text fields. -/
theorem episodeFromInput_sanitized {i : EpisodeInput} {e : Episode}
    (h : episodeFromInput i = .ok e) :
    sanitize e.title = e.title ∧ sanitize e.description = e.description ∧
      ∀ st ∈ e.subtitles, sanitize st.lang = st.lang ∧ sanitize st.label = st.label := by
  rcases episodeFromInput_ok h with
    ⟨id, title, description, season, episode, duration, streamUrl, lastUpdated,
     subs, _, _, _, _, _, _, _, _, hsubs, he⟩
  subst he
  exact ⟨by rw [sanitize_idem], by rw [sanitize_idem],
    subtitlesFromInput_sanitized hsubs⟩

/-- Re-parsing the output of a successful parse returns it unchanged
(the sanitizer is idempotent and no other field is transformed). -/
theorem episodeFromInput_toInput {i : EpisodeInput} {e e2 : Episode}
    (h : episodeFromInput i = .ok e)
    (h2 : episodeFromInput e.toInput = .ok e2) : e2 = e := by
  rcases episodeFromInput_sanitized h with ⟨htitle, hdesc, hsubs⟩
  simp only [Episode.toInput, episodeFromInput, Option.getD_some] at h2
  rcases hsubs2 : subtitlesFromInput (e.subtitles.map Subtitle.toInput)
      with m | subs2 <;>
    simp only [hsubs2] at h2
  · cases h2
  · split at h2
    · cases h2
      rw [subtitlesFromInput_toInput hsubs hsubs2]
      cases e
      simp_all
    · cases h2

/-! ## Lemmas: the merge engine and the data-model invariant -/

theorem set_getElem_self {α : Type} :
    ∀ {l : List α} {i : Nat}, (h : i < l.length) → l.set i (l.get ⟨i, h⟩) = l := by
  intro l
  induction l with
  | nil => intro i h; cases h
  | cons x xs ih =>
    intro i h
    cases i with
    | zero => rfl
    | succ j =>
      simp only [List.get_cons_succ, List.set_cons_succ]
      rw [ih (Nat.lt_of_succ_lt_succ h)]

theorem mergeEpisodesGo_inv {now : String} :
    ∀ {li : List EpisodeInput} {em em2 : List (Int × Episode)},
      mergeEpisodesGo now em li = .ok em2 →
      (alistKeys em).Nodup → AKeyOk (fun e => e.episode) em →
      (alistKeys em2).Nodup ∧ AKeyOk (fun e => e.episode) em2 := by
  intro li
  induction li with
  | nil =>
    intro em em2 h hnd hok
    cases h
    exact ⟨hnd, hok⟩
  | cons e rest ih =>
    intro em em2 h hnd hok
    rw [mergeEpisodesGo] at h
    rcases hp : episodeFromInput e with m | parsed <;> simp only [hp] at h
    · cases h
    · rcases hg : alistGet? parsed.episode em with _ | ex <;>
        simp only [hg] at h
      · exact ih h (nodup_alistKeys_set hnd) (akeyok_set hok rfl)
      · exact ih h (nodup_alistKeys_set hnd) (akeyok_set hok rfl)

theorem mergeSeasonsGo_inv {now : String} :
    ∀ {li : List SeasonInput} {m m2 : List (Int × Season)},
      mergeSeasonsGo now m li = .ok m2 →
      (alistKeys m).Nodup → AKeyOk (fun s => s.season) m →
      (∀ si ∈ li, ∀ s, seasonFromInput si = .ok s → EpisodesStrict s) →
      (∀ p ∈ m, EpisodesStrict p.2) →
      (alistKeys m2).Nodup ∧ AKeyOk (fun s => s.season) m2 ∧
        ∀ p ∈ m2, EpisodesStrict p.2 := by
  intro li
  induction li with
  | nil =>
    intro m m2 h hnd hok _ hall
    cases h
    exact ⟨hnd, hok, hall⟩
  | cons inc rest ih =>
    intro m m2 h hnd hok hin hall
    rw [mergeSeasonsGo] at h
    rcases hs : seasonFromInput inc with msg | ss <;> simp only [hs] at h
    · cases h
    · rcases hg : alistGet? ss.season m with _ | current <;> simp only [hg] at h
      · refine ih h (nodup_alistKeys_set hnd) (akeyok_set hok rfl)
          (fun si hsi => hin si (List.mem_cons_of_mem _ hsi)) ?_
        intro p hp
        rcases mem_alistSet hp with hp | hp
        · subst hp
          exact hin inc (List.mem_cons_self _ _) ss hs
        · exact hall p hp
      · rcases hm : mergeEpisodesGo now (episodeMapSeed current.episodes)
            (ss.episodes.map Episode.toInput) with msg | em <;>
          simp only [hm] at h
        · cases h
        · have hseed : (alistKeys (episodeMapSeed current.episodes)).Nodup :=
            nodup_keys_foldl_set _ _ [] (by simp [alistKeys])
          have hseedok : AKeyOk (fun e => e.episode)
              (episodeMapSeed current.episodes) :=
            akeyok_foldl_set _ _ [] (by intro p hp; cases hp)
          rcases mergeEpisodesGo_inv hm hseed hseedok with ⟨hemnd, hemok⟩
          refine ih h (nodup_alistKeys_set hnd) (akeyok_set hok rfl)
            (fun si hsi => hin si (List.mem_cons_of_mem _ hsi)) ?_
          · intro p hp
            rcases mem_alistSet hp with hp | hp
            · subst hp
              exact sortByKey_values_lt hemnd hemok
            · exact hall p hp

theorem mergeSeasonsGo_keys {now : String} :
    ∀ {li : List SeasonInput} {m m2 : List (Int × Season)},
      mergeSeasonsGo now m li = .ok m2 →
      (alistKeys m).Nodup → AKeyOk (fun s => s.season) m →
      (alistKeys m2).Nodup ∧ AKeyOk (fun s => s.season) m2 := by
  intro li
  induction li with
  | nil =>
    intro m m2 h hnd hok
    cases h
    exact ⟨hnd, hok⟩
  | cons inc rest ih =>
    intro m m2 h hnd hok
    rw [mergeSeasonsGo] at h
    rcases hs : seasonFromInput inc with msg | ss <;> simp only [hs] at h
    · cases h
    · rcases hg : alistGet? ss.season m with _ | current <;> simp only [hg] at h
      · exact ih h (nodup_alistKeys_set hnd) (akeyok_set hok rfl)
      · rcases hm : mergeEpisodesGo now (episodeMapSeed current.episodes)
            (ss.episodes.map Episode.toInput) with msg | em <;>
          simp only [hm] at h
        · cases h
        · exact ih h (nodup_alistKeys_set hnd) (akeyok_set hok rfl)

/-- Season numbers in the output of `mergeSeasons` are strictly ascending,
unconditionally. -/
theorem mergeSeasons_sorted {existing : List Season} {inc : List SeasonInput}
    {now : String} {res : List Season}
    (h : mergeSeasons existing inc now = .ok res) : SeasonsStrict res := by
  rw [mergeSeasons] at h
  rcases hgo : mergeSeasonsGo now (seasonMapSeed existing) inc with msg | m2 <;>
    simp only [hgo] at h
  · cases h
  · cases h
    have hseed : (alistKeys (seasonMapSeed existing)).Nodup :=
      nodup_keys_foldl_set _ _ [] (by simp [alistKeys])
    have hseedok : AKeyOk (fun s => s.season) (seasonMapSeed existing) :=
      akeyok_foldl_set _ _ [] (by intro p hp; cases hp)
    rcases mergeSeasonsGo_keys hgo hseed hseedok with ⟨hnd, hok⟩
    exact sortByKey_values_lt hnd hok

/-- Episode ordering in the output of `mergeSeasons`: every reconciled
season is strictly sorted; a season inserted verbatim is strictly sorted
provided its parsed episode list already was, and untouched existing
seasons keep their ordering. -/
theorem mergeSeasons_episodes {existing : List Season} {inc : List SeasonInput}
    {now : String} {res : List Season}
    (h : mergeSeasons existing inc now = .ok res)
    (hin : ∀ si ∈ inc, ∀ s, seasonFromInput si = .ok s → EpisodesStrict s)
    (hex : ∀ q ∈ existing, EpisodesStrict q) :
    ∀ q ∈ res, EpisodesStrict q := by
  rw [mergeSeasons] at h
  rcases hgo : mergeSeasonsGo now (seasonMapSeed existing) inc with msg | m2 <;>
    simp only [hgo] at h
  · cases h
  · cases h
    have hseed : (alistKeys (seasonMapSeed existing)).Nodup :=
      nodup_keys_foldl_set _ _ [] (by simp [alistKeys])
    have hseedok : AKeyOk (fun s => s.season) (seasonMapSeed existing) :=
      akeyok_foldl_set _ _ [] (by intro p hp; cases hp)
    have hseedall : ∀ p ∈ seasonMapSeed existing, EpisodesStrict p.2 := by
      intro p hp
      rcases mem_foldl_set _ _ _ _ hp with hp | hp
      · cases hp
      · exact hex _ hp
    rcases mergeSeasonsGo_inv hgo hseed hseedok hin hseedall with ⟨_, _, hall⟩
    intro q hq
    rcases List.mem_map.mp (mem_sortByKey.mp hq) with ⟨p, hp, hq2⟩
    exact hq2 ▸ hall p hp

/-- In a list with pairwise-distinct keys, an element is determined by its
key. -/
theorem unique_by_key {α κ : Type} {key : α → κ} :
    ∀ {l : List α}, (l.map key).Nodup → ∀ {x y : α}, x ∈ l → y ∈ l →
      key x = key y → x = y := by
  intro l
  induction l with
  | nil => intro _ x y hx; cases hx
  | cons z zs ih =>
    intro hnd x y hx hy hk
    rw [List.map_cons, List.nodup_cons] at hnd
    rcases List.mem_cons.mp hx with hx1 | hx1 <;>
      rcases List.mem_cons.mp hy with hy1 | hy1
    · rw [hx1, hy1]
    · exfalso
      apply hnd.1
      have : key z = key y := by rw [← hx1]; exact hk
      rw [this]
      exact List.mem_map_of_mem key hy1
    · exfalso
      apply hnd.1
      have : key z = key x := by rw [← hy1]; exact hk.symm
      rw [this]
      exact List.mem_map_of_mem key hx1
    · exact ih hnd.2 hx1 hy1 hk

/-- Replacing the element at a position with an element of the same key, in
a list with pairwise-distinct keys, is the same as replacing by key
everywhere. -/
theorem set_eq_map_key {α κ : Type} [DecidableEq κ] {key : α → κ} :
    ∀ {l : List α} {j : Nat} (hj : j < l.length),
      (l.map key).Nodup → ∀ {x : α},
      key x = key (l.get ⟨j, hj⟩) →
      l.set j x = l.map fun y => if key y = key x then x else y := by
  intro l
  induction l with
  | nil => intro j hj; cases hj
  | cons y ys ih =>
    intro j hj hnd x hk
    rw [List.map_cons, List.nodup_cons] at hnd
    cases j with
    | zero =>
      rw [List.set_cons_zero, List.map_cons, if_pos (by rw [hk]; rfl)]
      congr 1
      have hrest : ∀ z ∈ ys, (if key z = key x then x else z) = z := by
        intro z hz
        rw [if_neg]
        intro hzx
        apply hnd.1
        rw [show key y = key z from by rw [hzx, hk]; rfl]
        exact List.mem_map_of_mem key hz
      rw [List.map_congr_left hrest]
      simp
    | succ j' =>
      have hj' : j' < ys.length := Nat.lt_of_succ_lt_succ hj
      rw [List.set_cons_succ, List.map_cons, if_neg, ih hj' hnd.2 hk]
      intro hyx
      apply hnd.1
      rw [show key y = key (ys.get ⟨j', hj'⟩) from by rw [hyx, hk]; rfl]
      exact List.mem_map_of_mem key (List.get_mem ys j' hj')

/-- Locate a uniquely keyed member with `findIdx?`. -/
theorem findIdx?_of_mem_unique {α : Type} {l : List α} {pred : α → Bool} {x : α}
    (hx : x ∈ l) (hpx : pred x = true)
    (huniq : ∀ y ∈ l, pred y = true → y = x) :
    ∃ i, l.findIdx? pred = some i ∧ l[i]? = some x := by
  have hfind := List.findIdx?_eq_some_of_exists ⟨x, hx, hpx⟩
  rcases List.findIdx?_eq_some_iff_getElem.mp hfind with ⟨hi, hpi, _⟩
  refine ⟨l.findIdx pred, hfind, ?_⟩
  rw [List.getElem?_eq_getElem hi]
  exact congrArg some (huniq _ (List.getElem_mem hi) hpi)

/-! ## Lemmas: mergeEpisode -/

theorem episodeFromInput_newPayload {p : EpisodePayload} {fid t : String}
    {ep : Episode} (h : episodeFromInput (p.newEpisodeInput fid t) = .ok ep) :
    ∃ subs, subtitlesFromInput (p.subtitles.map Subtitle.toInput) = .ok subs ∧
      ep = ⟨fid, sanitize p.title, sanitize p.description, p.season, p.episode,
            p.duration, p.streamUrl, subs, p.published, 0, t⟩ := by
  simp only [EpisodePayload.newEpisodeInput, episodeFromInput,
    Option.getD_some] at h
  rcases hsubs : subtitlesFromInput (p.subtitles.map Subtitle.toInput)
      with m | subs <;> simp only [hsubs] at h
  · cases h
  · split at h
    · cases h
      exact ⟨subs, rfl, rfl⟩
    · cases h

theorem episodeFromInput_overwrite {p : EpisodePayload} {old : Episode}
    {t : String} {ep : Episode}
    (h : episodeFromInput (p.overwriteInput old t) = .ok ep) :
    ∃ subs, subtitlesFromInput (p.subtitles.map Subtitle.toInput) = .ok subs ∧
      ep = ⟨old.id, sanitize p.title, sanitize p.description, p.season,
            p.episode, p.duration, p.streamUrl, subs, p.published, old.views,
            t⟩ := by
  simp only [EpisodePayload.overwriteInput, episodeFromInput,
    Option.getD_some] at h
  rcases hsubs : subtitlesFromInput (p.subtitles.map Subtitle.toInput)
      with m | subs <;> simp only [hsubs] at h
  · cases h
  · split at h
    · cases h
      exact ⟨subs, rfl, rfl⟩
    · cases h

theorem findIdx?_some_getElem? {α : Type} {l : List α} {pred : α → Bool}
    {i : Nat} (h : l.findIdx? pred = some i) :
    ∃ x, l[i]? = some x ∧ pred x = true ∧
      ∀ j x', j < i → l[j]? = some x' → pred x' = false := by
  rcases List.findIdx?_eq_some_iff_getElem.mp h with ⟨hi, hpi, hprev⟩
  refine ⟨_, List.getElem?_eq_getElem hi, hpi, ?_⟩
  intro j x' hj hx'
  have hjl : j < l.length := lt_trans hj hi
  rw [List.getElem?_eq_getElem hjl] at hx'
  cases hx'
  simpa using hprev j hj

theorem findIdx?_set_same {α : Type} {l : List α} {i : Nat} {x : α}
    {pred : α → Bool} (horig : l.findIdx? pred = some i) (hx : pred x = true) :
    (l.set i x).findIdx? pred = some i := by
  rcases List.findIdx?_eq_some_iff_getElem.mp horig with ⟨hi, _, hprev⟩
  apply List.findIdx?_eq_some_iff_getElem.mpr
  refine ⟨by simpa using hi, ?_, ?_⟩
  · rw [List.getElem_set, if_pos rfl]
    exact hx
  · intro j hj
    rw [List.getElem_set, if_neg (by omega)]
    exact hprev j hj

theorem map_set_same_key {α κ : Type} {key : α → κ} :
    ∀ {l : List α} {i : Nat} {x : α} (hi : i < l.length),
      key x = key (l.get ⟨i, hi⟩) → (l.set i x).map key = l.map key := by
  intro l
  induction l with
  | nil => intro i x hi; cases hi
  | cons y ys ih =>
    intro i x hi hk
    cases i with
    | zero =>
      rw [List.set_cons_zero, List.map_cons, List.map_cons, hk]
      rfl
    | succ i' =>
      rw [List.set_cons_succ, List.map_cons, List.map_cons,
        ih (Nat.lt_of_succ_lt_succ hi) hk]


theorem mergeEpisode_char {S : Series} {p : EpisodePayload} {fid t : String}
    {S2 : Series} (hinv : SeriesInv S) (h : mergeEpisode S p fid t = .ok S2) :
    SeriesInv S2 ∧ S2.updatedAt = t ∧
    ∃ qi q, S2.seasons.findIdx? (fun s => s.season == p.season) = some qi ∧
      S2.seasons[qi]? = some q ∧
      ∃ j ep1, q.episodes.findIdx? (fun e => e.episode == p.episode) = some j ∧
        q.episodes[j]? = some ep1 ∧ EpPayloadShape ep1 p := by
  rw [mergeEpisode] at h
  rcases hsf : S.seasons.findIdx? (fun s => s.season == p.season) with _ | i <;>
    simp only [hsf] at h
  · rcases hep : episodeFromInput (p.newEpisodeInput fid t) with m | ep <;>
      simp only [hep] at h
    · cases h
    · rcases hns : seasonFromInput ⟨some p.season, some [ep.toInput]⟩ with m | ns <;>
        simp only [hns] at h
      · cases h
      · cases h
        rcases episodeFromInput_newPayload hep with ⟨subs, hsubs, hepv⟩
        have hns2 : ns = ⟨p.season, [ep]⟩ := by
          simp only [seasonFromInput] at hns
          rcases hre : episodeFromInput ep.toInput with m | ep2 <;>
            simp only [episodesFromInput, hre] at hns
          · cases hns
          · split at hns
            · cases hns
              rw [episodeFromInput_toInput hep hre]
            · cases hns
        subst hns2
        have hepepisode : ep.episode = p.episode := by rw [hepv]
        have hnone := List.findIdx?_eq_none_iff.mp hsf
        have hnotmem : p.season ∉ S.seasons.map fun s => s.season := by
          intro hm
          rcases List.mem_map.mp hm with ⟨q, hq, hqs⟩
          have hf := hnone q hq
          rw [hqs] at hf
          simp at hf
        have hnd : (((S.seasons ++ [(⟨p.season, [ep]⟩ : Season)]).map
            fun s => s.season)).Nodup := by
          rw [List.map_append, List.nodup_append]
          refine ⟨pairwise_lt_nodup hinv.1, List.nodup_singleton _, ?_⟩
          intro a ha hb
          simp only [List.map_cons, List.map_nil, List.mem_singleton] at hb
          subst hb
          exact hnotmem ha
        have hstrict : SeasonsStrict (sortByKey (fun s => s.season)
            (S.seasons ++ [(⟨p.season, [ep]⟩ : Season)])) :=
          sortByKey_pairwise_lt hnd
        have heps : ∀ q ∈ sortByKey (fun s => s.season)
            (S.seasons ++ [(⟨p.season, [ep]⟩ : Season)]), EpisodesStrict q := by
          intro q hq
          rcases List.mem_append.mp (mem_sortByKey.mp hq) with h1 | h1
          · exact hinv.2 q h1
          · rw [List.mem_singleton] at h1
            subst h1
            exact List.pairwise_singleton _ _
        refine ⟨⟨hstrict, heps⟩, rfl, ?_⟩
        have hmemns : (⟨p.season, [ep]⟩ : Season) ∈ sortByKey (fun s => s.season)
            (S.seasons ++ [(⟨p.season, [ep]⟩ : Season)]) :=
          mem_sortByKey.mpr (List.mem_append_right _ (List.mem_cons_self _ _))
        have hpred : ((⟨p.season, [ep]⟩ : Season).season == p.season) = true := by
          simp
        have huniq : ∀ y ∈ sortByKey (fun s => s.season)
            (S.seasons ++ [(⟨p.season, [ep]⟩ : Season)]),
            (y.season == p.season) = true → y = ⟨p.season, [ep]⟩ := by
          intro y hy hyp
          apply @unique_by_key _ _ (fun s => s.season) _
            (pairwise_lt_nodup hstrict) _ _ hy hmemns
          simp only [beq_iff_eq] at hyp
          simp [hyp]
        rcases findIdx?_of_mem_unique hmemns hpred huniq with ⟨qi, hfind, hget⟩
        refine ⟨qi, ⟨p.season, [ep]⟩, hfind, hget, 0, ep, ?_, rfl, ?_⟩
        · simp [List.findIdx?_cons, hepepisode]
        · rw [hepv]
          exact ⟨rfl, rfl, rfl, rfl, rfl, rfl, hsubs, rfl⟩
  · rcases findIdx?_some_getElem? hsf with ⟨q, hq, hqpred, hqprev⟩
    have hqmem : q ∈ S.seasons := List.getElem?_mem hq
    have hqseason : q.season = p.season := by simpa using hqpred
    have hgd : S.seasons.getD i defaultSeason = q := by
      rw [List.getD_eq_getElem?_getD, hq]
      rfl
    rw [hgd] at h
    have hi : i < S.seasons.length := by
      rcases List.findIdx?_eq_some_iff_getElem.mp hsf with ⟨hi, _, _⟩
      exact hi
    have hqget : S.seasons.get ⟨i, hi⟩ = q := by
      have := List.getElem?_eq_getElem hi
      rw [hq] at this
      exact ((Option.some.injEq _ _).mp this.symm)
    rcases hef : q.episodes.findIdx? (fun e => e.episode == p.episode)
        with _ | j <;> simp only [hef] at h
    · rcases hep : episodeFromInput (p.newEpisodeInput fid t) with m | ep <;>
        simp only [hep] at h
      · cases h
      · cases h
        rcases episodeFromInput_newPayload hep with ⟨subs, hsubs, hepv⟩
        have hepepisode : ep.episode = p.episode := by rw [hepv]
        have hqeps : EpisodesStrict q := hinv.2 q hqmem
        have hnoteps : p.episode ∉ q.episodes.map fun e => e.episode := by
          intro hm
          rcases List.mem_map.mp hm with ⟨e0, he0, he0e⟩
          have hf := List.findIdx?_eq_none_iff.mp hef e0 he0
          rw [he0e] at hf
          simp at hf
        have hepnd : ((q.episodes ++ [ep]).map fun e => e.episode).Nodup := by
          rw [List.map_append, List.nodup_append]
          refine ⟨pairwise_lt_nodup hqeps, List.nodup_singleton _, ?_⟩
          intro a ha hb
          simp only [List.map_cons, List.map_nil, List.mem_singleton] at hb
          subst hb
          exact hnoteps (hepepisode ▸ ha)
        have hepstrict : (sortByKey (fun e => e.episode)
            (q.episodes ++ [ep])).Pairwise fun a b => a.episode < b.episode :=
          sortByKey_pairwise_lt hepnd
        have hkeymap : (S.seasons.set i ({ q with episodes := sortByKey (fun e => e.episode) (q.episodes ++ [ep]) } : Season)).map (fun s => s.season) = S.seasons.map fun s => s.season :=
          map_set_same_key hi (by rw [hqget])
        have hsetstrict : (S.seasons.set i ({ q with episodes := sortByKey (fun e => e.episode) (q.episodes ++ [ep]) } : Season)).Pairwise fun a b => a.season < b.season := by
          have hm := List.pairwise_map.mpr hinv.1
          rw [← hkeymap] at hm
          exact List.pairwise_map.mp hm
        have hsorteq : sortByKey (fun s => s.season) (S.seasons.set i ({ q with episodes := sortByKey (fun e => e.episode) (q.episodes ++ [ep]) } : Season)) = S.seasons.set i ({ q with episodes := sortByKey (fun e => e.episode) (q.episodes ++ [ep]) } : Season) := sortByKey_eq_self hsetstrict
        refine ⟨⟨?_, ?_⟩, rfl, ?_⟩
        · rw [hsorteq]
          exact hsetstrict
        · intro q2 hq2
          rw [hsorteq] at hq2
          rcases List.mem_or_eq_of_mem_set hq2 with hq2 | hq2
          · exact hinv.2 q2 hq2
          · subst hq2
            exact hepstrict
        · refine ⟨i, { q with episodes := sortByKey (fun e => e.episode) (q.episodes ++ [ep]) }, ?_, ?_, ?_⟩
          · rw [hsorteq]
            exact findIdx?_set_same hsf (by simpa using hqseason)
          · rw [hsorteq]
            exact List.getElem?_set_self hi
          · have hmemep : ep ∈ sortByKey (fun e => e.episode)
                (q.episodes ++ [ep]) :=
              mem_sortByKey.mpr (List.mem_append_right _ (List.mem_cons_self _ _))
            have huniq : ∀ y ∈ sortByKey (fun e => e.episode)
                (q.episodes ++ [ep]), (y.episode == p.episode) = true → y = ep := by
              intro y hy hyp
              apply @unique_by_key _ _ (fun e => e.episode) _
                (pairwise_lt_nodup hepstrict) _ _ hy hmemep
              simp only [beq_iff_eq] at hyp
              simp [hyp, hepepisode]
            rcases findIdx?_of_mem_unique hmemep (by simpa using hepepisode)
                huniq with ⟨j2, hfind2, hget2⟩
            refine ⟨j2, ep, hfind2, hget2, ?_⟩
            rw [hepv]
            exact ⟨rfl, rfl, rfl, rfl, rfl, rfl, hsubs, rfl⟩
    · rcases findIdx?_some_getElem? hef with ⟨old, hold, holdpred, holdprev⟩
      have holdep : old.episode = p.episode := by simpa using holdpred
      have hgdj : q.episodes.getD j defaultEpisode = old := by
        rw [List.getD_eq_getElem?_getD, hold]
        rfl
      rw [hgdj] at h
      have hj : j < q.episodes.length := by
        rcases List.findIdx?_eq_some_iff_getElem.mp hef with ⟨hj, _, _⟩
        exact hj
      have holdget : q.episodes.get ⟨j, hj⟩ = old := by
        have hge := List.getElem?_eq_getElem hj
        rw [hold] at hge
        exact ((Option.some.injEq _ _).mp hge.symm)
      rcases hep : episodeFromInput (p.overwriteInput old t) with m | ep <;>
        simp only [hep] at h
      · cases h
      · cases h
        rcases episodeFromInput_overwrite hep with ⟨subs, hsubs, hepv⟩
        have hepepisode : ep.episode = p.episode := by rw [hepv]
        have hqeps : EpisodesStrict q := hinv.2 q hqmem
        have hepkeymap : (q.episodes.set j ep).map (fun e => e.episode) = q.episodes.map fun e => e.episode :=
          map_set_same_key hj (by rw [holdget, hepepisode, holdep])
        have hepsetstrict : (q.episodes.set j ep).Pairwise fun a b => a.episode < b.episode := by
          have hm := List.pairwise_map.mpr hqeps
          rw [← hepkeymap] at hm
          exact List.pairwise_map.mp hm
        have hepsorteq : sortByKey (fun e => e.episode) (q.episodes.set j ep) = q.episodes.set j ep :=
          sortByKey_eq_self hepsetstrict
        have hkeymap : (S.seasons.set i ({ q with episodes := sortByKey (fun e => e.episode) (q.episodes.set j ep) } : Season)).map (fun s => s.season) = S.seasons.map fun s => s.season :=
          map_set_same_key hi (by rw [hqget])
        have hsetstrict : (S.seasons.set i ({ q with episodes := sortByKey (fun e => e.episode) (q.episodes.set j ep) } : Season)).Pairwise fun a b => a.season < b.season := by
          have hm := List.pairwise_map.mpr hinv.1
          rw [← hkeymap] at hm
          exact List.pairwise_map.mp hm
        have hsorteq : sortByKey (fun s => s.season) (S.seasons.set i ({ q with episodes := sortByKey (fun e => e.episode) (q.episodes.set j ep) } : Season)) = S.seasons.set i ({ q with episodes := sortByKey (fun e => e.episode) (q.episodes.set j ep) } : Season) :=
          sortByKey_eq_self hsetstrict
        refine ⟨⟨?_, ?_⟩, rfl, ?_⟩
        · rw [hsorteq]
          exact hsetstrict
        · intro q2 hq2
          rw [hsorteq] at hq2
          rcases List.mem_or_eq_of_mem_set hq2 with hq2 | hq2
          · exact hinv.2 q2 hq2
          · subst hq2
            rw [hepsorteq]
            exact hepsetstrict
        · refine ⟨i, { q with episodes := sortByKey (fun e => e.episode) (q.episodes.set j ep) }, ?_, ?_, ?_⟩
          · rw [hsorteq]
            exact findIdx?_set_same hsf (by simpa using hqseason)
          · rw [hsorteq]
            exact List.getElem?_set_self hi
          · refine ⟨j, ep, ?_, ?_, ?_⟩
            · rw [hepsorteq]
              exact findIdx?_set_same hef (by simpa using hepepisode)
            · rw [hepsorteq]
              exact List.getElem?_set_self hj
            · rw [hepv]
              exact ⟨rfl, rfl, rfl, rfl, rfl, rfl, hsubs, rfl⟩




/-- Applying `mergeEpisode` a second time with the same payload only
re-stamps that episode's `lastUpdated` and the series `updatedAt`. -/
theorem mergeEpisode_idem {S S1 S2 : Series} {p : EpisodePayload}
    {id1 id2 t1 t2 : String} (hinv : SeriesInv S)
    (h1 : mergeEpisode S p id1 t1 = .ok S1)
    (h2 : mergeEpisode S1 p id2 t2 = .ok S2) :
    S2 = stampEpisode S1 p.season p.episode t2 := by
  rcases mergeEpisode_char hinv h1 with
    ⟨hinv1, _, qi, q, hfind, hq, j, ep1, hef, hep1, hshape⟩
  have hqmem : q ∈ S1.seasons := List.getElem?_mem hq
  have hqi : qi < S1.seasons.length := by
    rcases List.findIdx?_eq_some_iff_getElem.mp hfind with ⟨hqi, _, _⟩
    exact hqi
  have hqget : S1.seasons.get ⟨qi, hqi⟩ = q := by
    have hge := List.getElem?_eq_getElem hqi
    rw [hq] at hge
    exact ((Option.some.injEq _ _).mp hge.symm)
  have hqseason : q.season = p.season := by
    rcases findIdx?_some_getElem? hfind with ⟨q0, hq0, hpred0, _⟩
    rw [hq] at hq0
    cases hq0
    simpa using hpred0
  have hj : j < q.episodes.length := by
    rcases List.findIdx?_eq_some_iff_getElem.mp hef with ⟨hj, _, _⟩
    exact hj
  have hepget : q.episodes.get ⟨j, hj⟩ = ep1 := by
    have hge := List.getElem?_eq_getElem hj
    rw [hep1] at hge
    exact ((Option.some.injEq _ _).mp hge.symm)
  have hep1episode : ep1.episode = p.episode := by
    rcases findIdx?_some_getElem? hef with ⟨e0, he0, hprede0, _⟩
    rw [hep1] at he0
    cases he0
    simpa using hprede0
  have hqeps : EpisodesStrict q := hinv1.2 q hqmem
  -- unfold the second call
  rw [mergeEpisode] at h2
  simp only [hfind] at h2
  have hgd : S1.seasons.getD qi defaultSeason = q := by
    rw [List.getD_eq_getElem?_getD, hq]
    rfl
  rw [hgd] at h2
  simp only [hef] at h2
  have hgdj : q.episodes.getD j defaultEpisode = ep1 := by
    rw [List.getD_eq_getElem?_getD, hep1]
    rfl
  rw [hgdj] at h2
  rcases hep : episodeFromInput (p.overwriteInput ep1 t2) with m | ep <;>
    simp only [hep] at h2
  · cases h2
  · cases h2
    rcases episodeFromInput_overwrite hep with ⟨subs2, hsubs2, hepv⟩
    rcases hshape with ⟨hs1, hs2, hs3, hs4, hs5, hs6, hs7, hs8⟩
    have hsubs_eq : subs2 = ep1.subtitles := by
      rw [hsubs2] at hs7
      exact ((Except.ok.injEq _ _).mp hs7)
    have hepeq : ep = { ep1 with lastUpdated := t2 } := by
      rw [hepv, hsubs_eq]
      cases ep1
      simp_all
    subst hepeq
    -- episodes of the reconciled season
    have hepkey : ({ ep1 with lastUpdated := t2 } : Episode).episode =
        (q.episodes.get ⟨j, hj⟩).episode := by rw [hepget]
    have hepkeymap : (q.episodes.set j ({ ep1 with lastUpdated := t2 } : Episode)).map (fun e => e.episode) = q.episodes.map fun e => e.episode :=
      map_set_same_key hj hepkey
    have hepsetstrict : (q.episodes.set j ({ ep1 with lastUpdated := t2 } : Episode)).Pairwise fun a b => a.episode < b.episode := by
      have hm := List.pairwise_map.mpr hqeps
      rw [← hepkeymap] at hm
      exact List.pairwise_map.mp hm
    have hepsorteq : sortByKey (fun e => e.episode) (q.episodes.set j ({ ep1 with lastUpdated := t2 } : Episode)) = q.episodes.set j ({ ep1 with lastUpdated := t2 } : Episode) :=
      sortByKey_eq_self hepsetstrict
    have hepmapform : q.episodes.set j ({ ep1 with lastUpdated := t2 } : Episode) = q.episodes.map fun e => if e.episode = p.episode then { e with lastUpdated := t2 } else e := by
      rw [set_eq_map_key hj (pairwise_lt_nodup hqeps) hepkey]
      apply List.map_congr_left
      intro e he
      by_cases hc : e.episode = p.episode
      · have he1 : e = ep1 :=
          unique_by_key (pairwise_lt_nodup hqeps) he
            (hepget ▸ List.get_mem _ _ _) (by rw [hc, hep1episode])
        subst he1
        rw [if_pos rfl, if_pos hc]
      · rw [if_neg (fun hcc => hc (by
          rw [show e.episode = ep1.episode from hcc, hep1episode])), if_neg hc]
    have hkey2 : ({ q with episodes := sortByKey (fun e => e.episode) (q.episodes.set j ({ ep1 with lastUpdated := t2 } : Episode)) } : Season).season = (S1.seasons.get ⟨qi, hqi⟩).season := by
      rw [hqget]
    have hsetstrict : (S1.seasons.set qi ({ q with episodes := sortByKey (fun e => e.episode) (q.episodes.set j ({ ep1 with lastUpdated := t2 } : Episode)) } : Season)).Pairwise fun a b => a.season < b.season := by
      have hm := List.pairwise_map.mpr hinv1.1
      rw [← map_set_same_key hqi hkey2] at hm
      exact List.pairwise_map.mp hm
    have hsorteq : sortByKey (fun s => s.season) (S1.seasons.set qi ({ q with episodes := sortByKey (fun e => e.episode) (q.episodes.set j ({ ep1 with lastUpdated := t2 } : Episode)) } : Season)) = S1.seasons.set qi ({ q with episodes := sortByKey (fun e => e.episode) (q.episodes.set j ({ ep1 with lastUpdated := t2 } : Episode)) } : Season) :=
      sortByKey_eq_self hsetstrict
    have hmapform := set_eq_map_key hqi (pairwise_lt_nodup hinv1.1) hkey2
    simp only [stampEpisode]
    congr 1
    rw [hsorteq, hmapform]
    apply List.map_congr_left
    intro s hs
    by_cases hcs : s.season = p.season
    · have hs1 : s = q :=
        unique_by_key (pairwise_lt_nodup hinv1.1) hs hqmem (by rw [hcs, hqseason])
      subst hs1
      rw [if_pos rfl, if_pos hcs, hepsorteq, hepmapform]
    · rw [if_neg (fun hcc => hcs (by
        rw [show s.season = q.season from hcc, hqseason])), if_neg hcs]


/-- Replacing an element preserves distinctness of an image when the new
image collides with no other position. -/
theorem nodup_map_set {α β : Type} {f : α → β} :
    ∀ {l : List α} {i : Nat} {x : α} (hi : i < l.length),
      (l.map f).Nodup → (∀ y ∈ l, f y = f x → y = l.get ⟨i, hi⟩) →
      ((l.set i x).map f).Nodup := by
  intro l
  induction l with
  | nil => intro i x hi; cases hi
  | cons y ys ih =>
    intro i x hi hnd hx
    rw [List.map_cons, List.nodup_cons] at hnd
    cases i with
    | zero =>
      rw [List.set_cons_zero, List.map_cons, List.nodup_cons]
      refine ⟨?_, hnd.2⟩
      intro hfx
      rcases List.mem_map.mp hfx with ⟨z, hz, hfz⟩
      have hzy : z = y := hx z (List.mem_cons_of_mem _ hz) hfz
      exact hnd.1 (hzy ▸ List.mem_map_of_mem f hz)
    | succ i' =>
      have hi' : i' < ys.length := Nat.lt_of_succ_lt_succ hi
      rw [List.set_cons_succ, List.map_cons, List.nodup_cons]
      constructor
      · intro hfy
        rcases List.mem_map.mp hfy with ⟨z, hz, hfz⟩
        rcases List.mem_or_eq_of_mem_set hz with hz | hz
        · exact hnd.1 (hfz ▸ List.mem_map_of_mem f hz)
        · subst hz
          have hyy : y = ys.get ⟨i', hi'⟩ :=
            hx y (List.mem_cons_self _ _) hfz.symm
          apply hnd.1
          rw [hyy]
          exact List.mem_map_of_mem f (List.get_mem ys i' hi')
      · exact ih hi' hnd.2 fun z hz hfz => hx z (List.mem_cons_of_mem _ hz) hfz

/-- `mergeEpisode` unconditionally re-stamps the series `updatedAt`. -/
theorem mergeEpisode_updatedAt {S : Series} {p : EpisodePayload}
    {fid t : String} {S2 : Series} (h : mergeEpisode S p fid t = .ok S2) :
    S2.updatedAt = t := by
  rw [mergeEpisode] at h
  rcases hsf : S.seasons.findIdx? (fun s => s.season == p.season) with _ | i <;>
    simp only [hsf] at h
  · rcases h1 : episodeFromInput (p.newEpisodeInput fid t) with m | ep <;>
      simp only [h1] at h
    · cases h
    · rcases h2 : seasonFromInput ⟨some p.season, some [ep.toInput]⟩
          with m | ns <;> simp only [h2] at h
      · cases h
      · cases h
        rfl
  · rcases h1 : (S.seasons.getD i defaultSeason).episodes.findIdx?
        (fun e => e.episode == p.episode) with _ | j <;> simp only [h1] at h
    · rcases h2 : episodeFromInput (p.newEpisodeInput fid t) with m | ep <;>
        simp only [h2] at h
      · cases h
      · cases h
        rfl
    · rcases h2 : episodeFromInput (p.overwriteInput
          ((S.seasons.getD i defaultSeason).episodes.getD j defaultEpisode) t)
          with m | ep <;> simp only [h2] at h
      · cases h
      · cases h
        rfl

/-- `incrementSeriesView` never touches the series `updatedAt`. -/
theorem incrementSeriesView_updatedAt (S : Series) (sn en : Int)
    (now : String) :
    (incrementSeriesView S sn en now).updatedAt = S.updatedAt := by
  rw [incrementSeriesView]
  rcases h1 : S.seasons.findIdx? (fun s => s.season == sn) with _ | i <;>
    simp only [h1]
  rcases h2 : (S.seasons.getD i defaultSeason).episodes.findIdx?
      (fun e => e.episode == en) with _ | j <;> simp only [h2]

/-- `incrementMovieView` with an absent id is a silent no-op. -/
theorem incrementMovieView_absent {movies : List Movie} {id now : String}
    (h : ∀ m ∈ movies, m.id ≠ id) : incrementMovieView movies id now = movies := by
  rw [incrementMovieView,
    List.findIdx?_eq_none_iff.mpr fun m hm => by simpa using h m hm]

/-- `incrementMovieView` bumps exactly the movie with the given id (and
re-stamps its `updatedAt`), leaving every other movie unchanged. -/
theorem incrementMovieView_eq {movies : List Movie} {id now : String}
    (hnd : (movies.map fun m => m.id).Nodup) :
    incrementMovieView movies id now =
      movies.map fun m => if m.id = id then
        { m with views := m.views + 1, updatedAt := now } else m := by
  rw [incrementMovieView]
  rcases hf : movies.findIdx? (fun m => m.id == id) with _ | i <;>
    simp only [hf]
  · have hid : ∀ m ∈ movies, (if m.id = id then
        ({ m with views := m.views + 1, updatedAt := now } : Movie) else m) = m := by
      intro m hm
      exact if_neg (by simpa using List.findIdx?_eq_none_iff.mp hf m hm)
    rw [List.map_congr_left hid]
    simp
  · rcases findIdx?_some_getElem? hf with ⟨m0, hm0, hpred, _⟩
    have hi : i < movies.length := by
      rcases List.findIdx?_eq_some_iff_getElem.mp hf with ⟨hi, _, _⟩
      exact hi
    have hm0get : movies.get ⟨i, hi⟩ = m0 := by
      have hge := List.getElem?_eq_getElem hi
      rw [hm0] at hge
      exact ((Option.some.injEq _ _).mp hge.symm)
    have hm0id : m0.id = id := by simpa using hpred
    have hgd : movies.getD i defaultMovie = m0 := by
      rw [List.getD_eq_getElem?_getD, hm0]
      rfl
    rw [hgd, set_eq_map_key hi hnd (by rw [hm0get])]
    apply List.map_congr_left
    intro m hm
    by_cases hc : m.id = id
    · have hmm : m = m0 := unique_by_key hnd hm (List.getElem?_mem hm0)
        (by rw [hc, hm0id])
      subst hmm
      rw [if_pos rfl, if_pos hc]
    · rw [if_neg (fun hcc => hc (by
        rw [show m.id = m0.id from hcc, hm0id])), if_neg hc]

/-- `incrementSeriesView` with an absent season/episode pair is a silent
no-op. -/
theorem incrementSeriesView_absent {S : Series} {sn en : Int} {now : String}
    (h : ∀ q ∈ S.seasons, q.season = sn → ∀ e ∈ q.episodes, e.episode ≠ en) :
    incrementSeriesView S sn en now = S := by
  rw [incrementSeriesView]
  rcases h1 : S.seasons.findIdx? (fun s => s.season == sn) with _ | i <;>
    simp only [h1]
  rcases findIdx?_some_getElem? h1 with ⟨q, hq, hpred, _⟩
  have hgd : S.seasons.getD i defaultSeason = q := by
    rw [List.getD_eq_getElem?_getD, hq]
    rfl
  rw [hgd, List.findIdx?_eq_none_iff.mpr fun e he => by
    simpa using h q (List.getElem?_mem hq) (by simpa using hpred) e he]

/-- `incrementSeriesView` bumps exactly the targeted episode's `views` and
`lastUpdated`, leaving every other episode, season and series field
unchanged. -/
theorem incrementSeriesView_eq {S : Series} {sn en : Int} {now : String}
    (hinv : SeriesInv S) :
    incrementSeriesView S sn en now =
      { S with seasons := S.seasons.map fun q => if q.season = sn then
          { q with episodes := q.episodes.map fun e => if e.episode = en then
              { e with views := e.views + 1, lastUpdated := now } else e }
        else q } := by
  rw [incrementSeriesView]
  rcases h1 : S.seasons.findIdx? (fun s => s.season == sn) with _ | i <;>
    simp only [h1]
  · have hid : ∀ q ∈ S.seasons, (if q.season = sn then
        ({ q with episodes := q.episodes.map fun e => if e.episode = en then
            { e with views := e.views + 1, lastUpdated := now } else e } : Season)
        else q) = q := by
      intro q hq
      exact if_neg (by simpa using List.findIdx?_eq_none_iff.mp h1 q hq)
    rw [List.map_congr_left hid]
    simp
  · rcases findIdx?_some_getElem? h1 with ⟨q, hq, hpred, _⟩
    have hi : i < S.seasons.length := by
      rcases List.findIdx?_eq_some_iff_getElem.mp h1 with ⟨hi, _, _⟩
      exact hi
    have hqget : S.seasons.get ⟨i, hi⟩ = q := by
      have hge := List.getElem?_eq_getElem hi
      rw [hq] at hge
      exact ((Option.some.injEq _ _).mp hge.symm)
    have hqmem : q ∈ S.seasons := List.getElem?_mem hq
    have hqsn : q.season = sn := by simpa using hpred
    have hgd : S.seasons.getD i defaultSeason = q := by
      rw [List.getD_eq_getElem?_getD, hq]
      rfl
    have hqnd : (q.episodes.map fun e => e.episode).Nodup :=
      pairwise_lt_nodup (hinv.2 q hqmem)
    have hsnd : (S.seasons.map fun s => s.season).Nodup :=
      pairwise_lt_nodup hinv.1
    rw [hgd]
    rcases h2 : q.episodes.findIdx? (fun e => e.episode == en) with _ | j <;>
      simp only [h2]
    · have hinner : ∀ e ∈ q.episodes, (if e.episode = en then
          ({ e with views := e.views + 1, lastUpdated := now } : Episode)
          else e) = e := by
        intro e he
        exact if_neg (by simpa using List.findIdx?_eq_none_iff.mp h2 e he)
      have houter : ∀ s ∈ S.seasons, (if s.season = sn then
          ({ s with episodes := s.episodes.map fun e => if e.episode = en then
              { e with views := e.views + 1, lastUpdated := now } else e } : Season)
          else s) = s := by
        intro s hs
        by_cases hcs : s.season = sn
        · have hsq : s = q := unique_by_key hsnd hs hqmem (by rw [hcs, hqsn])
          subst hsq
          rw [if_pos hcs, List.map_congr_left hinner]
          simp
        · exact if_neg hcs
      rw [List.map_congr_left houter]
      simp
    · rcases findIdx?_some_getElem? h2 with ⟨ep, hep, hpredep, _⟩
      have hj : j < q.episodes.length := by
        rcases List.findIdx?_eq_some_iff_getElem.mp h2 with ⟨hj, _, _⟩
        exact hj
      have hepget : q.episodes.get ⟨j, hj⟩ = ep := by
        have hge := List.getElem?_eq_getElem hj
        rw [hep] at hge
        exact ((Option.some.injEq _ _).mp hge.symm)
      have hepen : ep.episode = en := by simpa using hpredep
      have hgdj : q.episodes.getD j defaultEpisode = ep := by
        rw [List.getD_eq_getElem?_getD, hep]
        rfl
      rw [hgdj, set_eq_map_key hi hsnd (by rw [hqget]),
        set_eq_map_key hj hqnd (by rw [hepget])]
      congr 1
      apply List.map_congr_left
      intro s hs
      by_cases hcs : s.season = sn
      · have hsq : s = q := unique_by_key hsnd hs hqmem (by rw [hcs, hqsn])
        subst hsq
        rw [if_pos rfl, if_pos hcs]
        congr 1
        apply List.map_congr_left
        intro e he
        by_cases hce : e.episode = en
        · have hee : e = ep := unique_by_key hqnd he
            (List.getElem?_mem hep) (by rw [hce, hepen])
          subst hee
          rw [if_pos rfl, if_pos hce]
        · rw [if_neg (fun hcc => hce (by
            rw [show e.episode = ep.episode from hcc, hepen])), if_neg hce]
      · rw [if_neg (fun hcc => hcs (by
          rw [show s.season = q.season from hcc, hqsn])), if_neg hcs]

/-- Merging a single incoming episode onto an existing season/episode pair
replaces every field of the stored episode by the parsed incoming one
(`mergeFullEpisode`), stamping `lastUpdated`; all other episodes and seasons
are untouched. -/
theorem mergeSeasons_overwrite {seasons : List Season} {oldSeason : Season}
    {old : Episode} {ein : EpisodeInput} {pE : Episode} {now : String}
    {res : List Season}
    (hstrict : SeasonsStrict seasons)
    (heps : EpisodesStrict oldSeason)
    (hmemS : oldSeason ∈ seasons)
    (hold : old ∈ oldSeason.episodes)
    (hp : episodeFromInput ein = .ok pE)
    (hpe : pE.episode = old.episode)
    (h : mergeSeasons seasons [⟨some oldSeason.season, some [ein]⟩] now = .ok res) :
    res = seasons.map fun q =>
      if q.season = oldSeason.season then
        { q with episodes := q.episodes.map fun e =>
            if e.episode = old.episode then mergeFullEpisode old pE now else e }
      else q := by
  have hnd : (seasons.map fun s => s.season).Nodup := pairwise_lt_nodup hstrict
  have hndE : (oldSeason.episodes.map fun e => e.episode).Nodup :=
    pairwise_lt_nodup heps
  have hseed : seasonMapSeed seasons = seasons.map fun s => (s.season, s) := by
    rw [seasonMapSeed]
    exact @foldl_set_eq_map _ (fun (s : Season) => s.season) _ hnd
  have hseedE : episodeMapSeed oldSeason.episodes =
      oldSeason.episodes.map fun e => (e.episode, e) := by
    rw [episodeMapSeed]
    exact @foldl_set_eq_map _ (fun (e : Episode) => e.episode) _ hndE
  rw [mergeSeasons] at h
  rcases hgo : mergeSeasonsGo now (seasonMapSeed seasons)
      [⟨some oldSeason.season, some [ein]⟩] with m | m2 <;> simp only [hgo] at h
  · cases h
  · cases h
    rw [mergeSeasonsGo] at hgo
    rcases hss : seasonFromInput ⟨some oldSeason.season, some [ein]⟩
        with m | ss <;> simp only [hss] at hgo
    · cases hgo
    · have hss2 : ss = ⟨oldSeason.season, [pE]⟩ := by
        simp only [seasonFromInput, episodesFromInput, hp] at hss
        split at hss
        · cases hss
          rfl
        · cases hss
      subst hss2
      rw [hseed] at hgo
      rw [@alistGet?_map_pair_found _ (fun (s : Season) => s.season) _ _ _ hnd hmemS rfl] at hgo
      rcases hm : mergeEpisodesGo now (episodeMapSeed oldSeason.episodes)
          ([pE].map Episode.toInput) with m | em <;> simp only [hm] at hgo
      · cases hgo
      · rw [mergeSeasonsGo] at hgo
        cases hgo
        -- compute the inner merge
        rw [List.map_cons, List.map_nil, mergeEpisodesGo] at hm
        rcases hre : episodeFromInput pE.toInput with m | pE2 <;>
          simp only [hre] at hm
        · cases hm
        · have hpE2 : pE2 = pE := episodeFromInput_toInput hp hre
          rw [hpE2] at hm
          rw [hseedE,
            @alistGet?_map_pair_found _ (fun (e : Episode) => e.episode) _ _ _
              hndE hold hpe.symm] at hm
          rw [mergeEpisodesGo] at hm
          cases hm
          -- value-level form of the updated episode map
          have hvals : (alistSet pE.episode (mergeFullEpisode old pE now)
              (oldSeason.episodes.map fun e => (e.episode, e))).map Prod.snd =
              oldSeason.episodes.map fun e =>
                if e.episode = pE.episode then mergeFullEpisode old pE now else e :=
            @alistSet_map_pair_values _ (fun (e : Episode) => e.episode) _ _ _ _ hndE hold hpe.symm
          have hkeysE : (oldSeason.episodes.map fun e =>
              if e.episode = pE.episode then mergeFullEpisode old pE now else e).map
              (fun e => e.episode) = oldSeason.episodes.map fun e => e.episode := by
            rw [List.map_map]
            apply List.map_congr_left
            intro e he
            by_cases hc : e.episode = pE.episode
            · simp only [Function.comp_apply, if_pos hc]
              exact hc.symm
            · simp only [Function.comp_apply, if_neg hc]
          have hstrictE : (oldSeason.episodes.map fun e =>
              if e.episode = pE.episode then mergeFullEpisode old pE now else e).Pairwise
              fun a b => a.episode < b.episode := by
            have hm2 := List.pairwise_map.mpr heps
            rw [← hkeysE] at hm2
            exact List.pairwise_map.mp hm2
          rw [hvals, sortByKey_eq_self hstrictE]
          -- value-level form of the updated season map
          have hvalsS : (alistSet oldSeason.season
              ({ oldSeason with episodes := oldSeason.episodes.map fun e =>
                  if e.episode = pE.episode then mergeFullEpisode old pE now else e } : Season)
              (seasons.map fun s => (s.season, s))).map Prod.snd =
              seasons.map fun q =>
                if q.season = oldSeason.season then
                  { oldSeason with episodes := oldSeason.episodes.map fun e =>
                      if e.episode = pE.episode then mergeFullEpisode old pE now else e }
                else q :=
            @alistSet_map_pair_values _ (fun (s : Season) => s.season) _ _ _ _ hnd hmemS rfl
          have hkeysS : (seasons.map fun q =>
              if q.season = oldSeason.season then
                ({ oldSeason with episodes := oldSeason.episodes.map fun e =>
                    if e.episode = pE.episode then mergeFullEpisode old pE now else e } : Season)
              else q).map (fun s => s.season) = seasons.map fun s => s.season := by
            rw [List.map_map]
            apply List.map_congr_left
            intro q hq
            by_cases hc : q.season = oldSeason.season
            · simp only [Function.comp_apply, if_pos hc]
              exact hc.symm
            · simp only [Function.comp_apply, if_neg hc]
          have hstrictS : (seasons.map fun q =>
              if q.season = oldSeason.season then
                ({ oldSeason with episodes := oldSeason.episodes.map fun e =>
                    if e.episode = pE.episode then mergeFullEpisode old pE now else e } : Season)
              else q).Pairwise fun a b => a.season < b.season := by
            have hm2 := List.pairwise_map.mpr hstrict
            rw [← hkeysS] at hm2
            exact List.pairwise_map.mp hm2
          rw [hvalsS, sortByKey_eq_self hstrictS]
          apply List.map_congr_left
          intro q hq
          by_cases hc : q.season = oldSeason.season
          · have hqo : q = oldSeason := unique_by_key hnd hq hmemS hc
            subst hqo
            rw [if_pos hc, if_pos hc]
            congr 1
            apply List.map_congr_left
            intro e _
            rw [hpe]
          · rw [if_neg hc, if_neg hc]


/-! ## Claims -/

/-- C1 (claim as stated is false on the code).  Counterexample, part one:
the claim's own example — merging the partial payload `{duration: 20}` onto
the stored episode `{title: "A", duration: 10, published: false}` — does not
produce a merged episode at all: `episodeSchema.parse` rejects the payload
because `id`, `title`, `streamUrl` and the other required fields are
missing.  Part two: an incoming payload that parses but omits the
defaultable field `published` does not keep the stored value `published :=
true`; the parsed incoming record carries the zod default `false` and the
spread overwrites the stored field with it. -/
theorem c1_counterexample :
    mergeSeasons c1Seasons [c1IncPartial] "t1" =
      .error "episode required field missing" ∧
    mergeSeasons c1Seasons [c1IncFull] "t1" =
      .ok [⟨1, [⟨uuidA, "A", "", 1, 1, 20, urlA, [], false, 0, "t1"⟩]⟩] ∧
    epA.published = true := by
  exact ⟨rfl, rfl, rfl⟩

/-- C1 (amended): for an existing episode and an incoming episode payload
with the same season and episode number, the merge requires the incoming
payload to carry every schema-required field; the merged episode is
`mergeFullEpisode old parsed now` — every field (including the defaulted
`subtitles`, `published` and `views`) is taken from the parsed incoming
payload and only `lastUpdated` is stamped — while all other episodes and
seasons are kept unchanged. -/
theorem c1_theorem (seasons : List Season) (oldSeason : Season)
    (old : Episode) (ein : EpisodeInput) (pE : Episode) (now : String)
    (res : List Season)
    (hstrict : SeasonsStrict seasons)
    (heps : EpisodesStrict oldSeason)
    (hmemS : oldSeason ∈ seasons)
    (hold : old ∈ oldSeason.episodes)
    (hp : episodeFromInput ein = .ok pE)
    (hpe : pE.episode = old.episode)
    (h : mergeSeasons seasons [⟨some oldSeason.season, some [ein]⟩] now = .ok res) :
    res = seasons.map fun q =>
      if q.season = oldSeason.season then
        { q with episodes := q.episodes.map fun e =>
            if e.episode = old.episode then mergeFullEpisode old pE now else e }
      else q :=
  mergeSeasons_overwrite hstrict heps hmemS hold hp hpe h

/-- Witness for C1: a concrete merge of one incoming episode onto the one
stored episode. -/
theorem c1_witness :
    mergeSeasons c1Seasons [⟨some (1 : Int), some [c1Ein]⟩] "t9" =
      .ok [⟨1, [⟨uuidB, "B", "", 1, 1, 20, urlA, [], false, 0, "t9"⟩]⟩] ∧
    [⟨1, [⟨uuidB, "B", "", 1, 1, 20, urlA, [], false, 0, "t9"⟩]⟩] =
      c1Seasons.map fun q =>
        if q.season = (⟨1, [epA]⟩ : Season).season then
          { q with episodes := q.episodes.map fun e =>
              if e.episode = epA.episode then mergeFullEpisode epA c1PE "t9" else e }
        else q := by
  refine ⟨rfl, ?_⟩
  exact c1_theorem c1Seasons ⟨1, [epA]⟩ epA c1Ein c1PE "t9"
    [⟨1, [⟨uuidB, "B", "", 1, 1, 20, urlA, [], false, 0, "t9"⟩]⟩]
    (List.pairwise_singleton _ _) (List.pairwise_singleton _ _)
    (List.mem_singleton_self _) (List.mem_singleton_self _) rfl rfl rfl

/-- C2 (claim as stated is false on the code).  Counterexample: merging an
incoming season whose number is not yet present inserts it verbatim — the
episode list `[episode 2, episode 1]` is neither re-sorted nor
de-duplicated, so the produced document violates the strictly-ascending
episode invariant. -/
theorem c2_counterexample :
    mergeSeasons [] [⟨some (1 : Int), some [ep2.toInput, ep1.toInput]⟩] "t1" =
      .ok [⟨1, [ep2, ep1]⟩] ∧
    ¬ EpisodesStrict ⟨1, [ep2, ep1]⟩ := by
  refine ⟨rfl, ?_⟩
  intro h
  have h2 := (List.pairwise_cons.mp h).1 ep1 (List.mem_singleton_self _)
  revert h2
  decide

/-- C2 (amended): season numbers in a merged document are always strictly
ascending and duplicate-free; episode numbers within each season are
strictly ascending provided each season inserted verbatim from the incoming
payload already had a strictly ascending episode list (reconciled seasons
are re-sorted and keyed by episode number, existing untouched seasons keep
their ordering); `mergeEpisode` fully preserves the §3 invariant. -/
theorem c2_theorem (existing : List Season) (inc : List SeasonInput)
    (now : String) (res : List Season) (S S2 : Series) (p : EpisodePayload)
    (fid t : String) :
    (mergeSeasons existing inc now = .ok res → SeasonsStrict res) ∧
    (mergeSeasons existing inc now = .ok res →
      (∀ si ∈ inc, ∀ s, seasonFromInput si = .ok s → EpisodesStrict s) →
      (∀ q ∈ existing, EpisodesStrict q) →
      ∀ q ∈ res, EpisodesStrict q) ∧
    (SeriesInv S → mergeEpisode S p fid t = .ok S2 → SeriesInv S2) :=
  ⟨fun h => mergeSeasons_sorted h,
   fun h hin hex => mergeSeasons_episodes h hin hex,
   fun hinv h => (mergeEpisode_char hinv h).1⟩

/-- Witness for C2: a concrete merge inserting season 2 into a series with
season 1, and a concrete `mergeEpisode` run. -/
theorem c2_witness :
    SeasonsStrict [(⟨1, [ep1]⟩ : Season), ⟨2, [epX]⟩] ∧
    (∀ q ∈ [(⟨1, [ep1]⟩ : Season), ⟨2, [epX]⟩], EpisodesStrict q) ∧
    SeriesInv c3S1 := by
  have hmerge : mergeSeasons [⟨1, [ep1]⟩] [⟨some (2 : Int), some [epX.toInput]⟩]
      "t1" = .ok [⟨1, [ep1]⟩, ⟨2, [epX]⟩] := rfl
  have hin : ∀ si ∈ [(⟨some (2 : Int), some [epX.toInput]⟩ : SeasonInput)],
      ∀ s, seasonFromInput si = .ok s → EpisodesStrict s := by
    intro si hsi s hs
    rw [List.mem_singleton] at hsi
    subst hsi
    rw [show seasonFromInput (⟨some (2 : Int), some [epX.toInput]⟩ : SeasonInput) =
      .ok ⟨2, [epX]⟩ from rfl] at hs
    cases hs
    decide
  have hex : ∀ q ∈ [(⟨1, [ep1]⟩ : Season)], EpisodesStrict q := by
    intro q hq
    rw [List.mem_singleton] at hq
    subst hq
    decide
  refine ⟨(c2_theorem [⟨1, [ep1]⟩] [⟨some (2 : Int), some [epX.toInput]⟩] "t1"
      [⟨1, [ep1]⟩, ⟨2, [epX]⟩] c3S c3S1 c3P uuidB "t1").1 hmerge,
    (c2_theorem [⟨1, [ep1]⟩] [⟨some (2 : Int), some [epX.toInput]⟩] "t1"
      [⟨1, [ep1]⟩, ⟨2, [epX]⟩] c3S c3S1 c3P uuidB "t1").2.1 hmerge hin hex,
    (c2_theorem [⟨1, [ep1]⟩] [⟨some (2 : Int), some [epX.toInput]⟩] "t1"
      [⟨1, [ep1]⟩, ⟨2, [epX]⟩] c3S c3S1 c3P uuidB "t1").2.2 (by decide) rfl⟩

/-- C3: applying `mergeEpisode` twice with the same unchanged payload (on a
series satisfying the §3 invariant) produces, the second time, exactly the
first result with only that episode's `lastUpdated` and the series
`updatedAt` re-stamped; no episode or season is duplicated and the ordering
invariant holds after both applications. -/
theorem c3_theorem (S S1 S2 : Series) (p : EpisodePayload)
    (id1 id2 t1 t2 : String) (hinv : SeriesInv S)
    (h1 : mergeEpisode S p id1 t1 = .ok S1)
    (h2 : mergeEpisode S1 p id2 t2 = .ok S2) :
    S2 = stampEpisode S1 p.season p.episode t2 ∧ SeriesInv S1 ∧ SeriesInv S2 :=
  ⟨mergeEpisode_idem hinv h1 h2, (mergeEpisode_char hinv h1).1,
   (mergeEpisode_char (mergeEpisode_char hinv h1).1 h2).1⟩

/-- Witness for C3: a concrete double merge of the same payload. -/
theorem c3_witness :
    mergeEpisode c3S c3P uuidB "t1" = .ok c3S1 ∧
    mergeEpisode c3S1 c3P uuidC "t2" = .ok c3S2 ∧
    c3S2 = stampEpisode c3S1 c3P.season c3P.episode "t2" ∧ SeriesInv c3S2 := by
  refine ⟨rfl, rfl, ?_, ?_⟩
  · exact (c3_theorem c3S c3S1 c3S2 c3P uuidB uuidC "t1" "t2"
      (by decide) rfl rfl).1
  · exact (c3_theorem c3S c3S1 c3S2 c3P uuidB uuidC "t1" "t2"
      (by decide) rfl rfl).2.2


/-- C4: `appendHistory` re-validates the stored history, removes every entry
carrying the incoming `contentId` and unshifts the new entry to the front:
the new entry becomes the first element, entries with other contentIds are
kept, nothing else is added, and distinctness of contentIds is preserved, so
at most one entry per contentId remains. -/
theorem c4_theorem (stored : List HistoryEntryInput) (entry : HistoryEntry)
    (history res : List HistoryEntry)
    (hparse : historyFromInput stored = .ok history)
    (hres : appendHistory stored entry = .ok res) :
    res = entry ::
      (history.filter fun item => !(item.contentId == entry.contentId)) ∧
    res.head? = some entry ∧
    (∀ item ∈ history, item.contentId ≠ entry.contentId → item ∈ res) ∧
    (∀ item ∈ res, item = entry ∨ item ∈ history) ∧
    ((history.map fun e => e.contentId).Nodup →
      (res.map fun e => e.contentId).Nodup) := by
  rw [appendHistory, hparse] at hres
  cases hres
  refine ⟨rfl, rfl, ?_, ?_, ?_⟩
  · intro item hmem hne
    exact List.mem_cons_of_mem _
      (List.mem_filter.mpr ⟨hmem, by simpa using hne⟩)
  · intro item hmem
    rcases List.mem_cons.mp hmem with h | h
    · exact Or.inl h
    · exact Or.inr (List.mem_of_mem_filter h)
  · intro hnd
    rw [List.map_cons, List.nodup_cons]
    refine ⟨?_, ?_⟩
    · intro hmem
      rcases List.mem_map.mp hmem with ⟨z, hz, hfz⟩
      have hzf := List.mem_filter.mp hz
      exact absurd hfz (by simpa using hzf.2)
    · exact List.Nodup.sublist
        (List.Sublist.map _ (List.filter_sublist _)) hnd

theorem c4_witness :
    ([c4New, c4E2] : List HistoryEntry) = c4New ::
      (([c4E1, c4E2] : List HistoryEntry).filter
        fun item => !(item.contentId == c4New.contentId)) ∧
    ([c4New, c4E2] : List HistoryEntry).head? = some c4New ∧
    (([c4New, c4E2] : List HistoryEntry).map fun e => e.contentId).Nodup := by
  have h := c4_theorem c4Stored c4New [c4E1, c4E2] [c4New, c4E2] rfl rfl
  exact ⟨h.1, h.2.1, h.2.2.2.2 (by decide)⟩

/-- C5: creating a movie whose (parsed) slug equals an existing movie's slug
fails with the conflict error, and creating a user whose (sanitized)
username equals the stored admin's or an existing user's username fails with
the conflict error.  Both checks run before anything is written, so an error
result means the stores are untouched. -/
theorem c5_theorem (payload : MovieCreatePayload) (movies : List Movie)
    (freshId now : String) (movie : Movie)
    (admin : Option UserRecord) (users : List UserRecord)
    (up : CreateUserPayload) (uid hash unow : String)
    (hparse : movieFromInput
      ⟨some freshId, payload.title, payload.slug, payload.description,
       payload.year, payload.duration, payload.posterUrl, payload.streamUrl,
       payload.subtitles, payload.categories, payload.published,
       payload.featured, some (0 : Int), some now, some now⟩ = .ok movie)
    (hdup : ∃ m ∈ movies, m.slug = movie.slug)
    (hvalid : usernameOk up.username = true ∧ 8 ≤ strLen up.password ∧
      strLen up.password ≤ 128)
    (huser : (match admin with
        | some a => a.username = sanitize up.username
        | none => False) ∨
      ∃ u ∈ users, u.username = sanitize up.username) :
    createMovie payload movies freshId now =
      .error "Movie slug already exists" ∧
    createUser admin users up uid hash unow =
      .error "Username already exists" := by
  constructor
  · rcases hdup with ⟨m, hm, hslug⟩
    have hany : (movies.any fun existing => existing.slug == movie.slug) = true :=
      List.any_eq_true.mpr ⟨m, hm, by simpa using hslug⟩
    rw [createMovie, hparse]
    simp only [hany]
    rfl
  · have hcond : (usernameOk up.username &&
        decide (8 ≤ strLen up.password) &&
        decide (strLen up.password ≤ 128)) = true := by
      simp [hvalid.1, hvalid.2.1, hvalid.2.2]
    have hsome : (findUserByUsername admin users
        (sanitize up.username)).isSome = true := by
      rcases huser with h | ⟨u, hu, huname⟩
      · rcases admin with _ | a
        · exact h.elim
        · rw [findUserByUsername, if_pos (by simpa using h)]
          rfl
      · have hfind : (users.find? fun v =>
            v.username == sanitize up.username).isSome = true := by
          rw [List.find?_isSome]
          exact ⟨u, hu, by simpa using huname⟩
        rcases admin with _ | a
        · rw [findUserByUsername]
          exact hfind
        · rw [findUserByUsername]
          split
          · rfl
          · exact hfind
    rw [createUser]
    simp only [hcond, if_true, hsome, if_pos]

theorem c5_witness :
    createMovie c5MP c5Movies uuidC "t5" =
      .error "Movie slug already exists" ∧
    createUser (some c5Admin) [] c5UP uuidB "hash" "t5" =
      .error "Username already exists" := by
  exact c5_theorem c5MP c5Movies uuidC "t5" c5NewMovie (some c5Admin) []
    c5UP uuidB "hash" "t5" rfl ⟨c5M1, by decide, rfl⟩
    ⟨by decide, by decide, by decide⟩ (Or.inl rfl)

/-- C6 (claim as stated is false on the code).  Counterexample: `updateMovie`
runs no slug-uniqueness check, so updating a movie's slug to one already
taken by another movie is accepted and stores two movies with the same
slug. -/
theorem c6_counterexample :
    updateMovie c6Movies uuidA c6Upd "t2" = .ok (c6M1dup, [c6M1dup, c6M2]) ∧
    (c6Movies.map fun m => m.slug).Nodup ∧
    ¬ (([c6M1dup, c6M2].map fun m => m.slug).Nodup) :=
  ⟨rfl, by decide, by decide⟩

/-- C6 (amended): `createMovie` and `deleteMovie` preserve pairwise-distinct
movie slugs; `updateMovie` stores the re-parsed movie in place without any
slug-uniqueness check, so it preserves distinctness only under the extra
assumption that the updated movie's slug collides with no other stored
movie. -/
theorem c6_theorem (payload : MovieCreatePayload) (movies : List Movie)
    (freshId now : String) (movie : Movie) (res : List Movie) (did : String)
    (movies2 : List Movie) (id2 : String) (update : MovieInput)
    (now2 : String) (updated : Movie) (res2 : List Movie) (i : Nat)
    (hi : i < movies2.length)
    (hnd : (movies.map fun m => m.slug).Nodup)
    (hok : createMovie payload movies freshId now = .ok (movie, res))
    (hnd2 : (movies2.map fun m => m.slug).Nodup)
    (hfind : movies2.findIdx? (fun m => m.id == id2) = some i)
    (hok2 : updateMovie movies2 id2 update now2 = .ok (updated, res2))
    (hsafe : ∀ m ∈ movies2, m.slug = updated.slug → m = movies2.get ⟨i, hi⟩) :
    (res.map fun m => m.slug).Nodup ∧
    ((deleteMovie movies2 did).map fun m => m.slug).Nodup ∧
    res2 = movies2.set i updated ∧
    (res2.map fun m => m.slug).Nodup := by
  have hcreate : (res.map fun m => m.slug).Nodup := by
    rw [createMovie] at hok
    rcases h1 : movieFromInput
        ⟨some freshId, payload.title, payload.slug, payload.description,
         payload.year, payload.duration, payload.posterUrl, payload.streamUrl,
         payload.subtitles, payload.categories, payload.published,
         payload.featured, some (0 : Int), some now, some now⟩
        with m | m0 <;> simp only [h1] at hok
    · cases hok
    · split at hok
      · cases hok
      · rename_i hany
        injection hok with h3
        injection h3 with h4 h5
        subst h4
        subst h5
        have hperm := ((sortByKey_perm (fun m : Movie => m.title)
          (movies ++ [m0])).map fun m => m.slug)
        rw [hperm.nodup_iff, List.map_append, List.nodup_append]
        refine ⟨hnd, List.nodup_singleton _, ?_⟩
        intro a ha hb
        rcases List.mem_map.mp ha with ⟨m, hm, hma⟩
        rcases List.mem_singleton.mp hb with rfl
        exact hany (List.any_eq_true.mpr ⟨m, hm, by simpa using hma⟩)
  have hdel : ((deleteMovie movies2 did).map fun m => m.slug).Nodup := by
    rw [deleteMovie]
    exact List.Nodup.sublist (List.Sublist.map _ (List.filter_sublist _)) hnd2
  have hupd : res2 = movies2.set i updated ∧
      (res2.map fun m => m.slug).Nodup := by
    rw [updateMovie, hfind] at hok2
    rcases h3 : movieFromInput
        (movieUpdateInput (movies2.getD i defaultMovie) update now2)
        with m | u0 <;> simp only [h3] at hok2
    · cases hok2
    · injection hok2 with h4
      injection h4 with h5 h6
      subst h5
      subst h6
      exact ⟨rfl, nodup_map_set hi hnd2 hsafe⟩
  exact ⟨hcreate, hdel, hupd.1, hupd.2⟩

theorem c6_witness :
    ((([c6CMovie] : List Movie).map fun m => m.slug).Nodup) ∧
    (((deleteMovie c6Movies uuidB).map fun m => m.slug).Nodup) ∧
    ([c6M1T, c6M2] : List Movie) = c6Movies.set 0 c6M1T ∧
    ((([c6M1T, c6M2] : List Movie).map fun m => m.slug).Nodup) := by
  exact c6_theorem c6CP [] uuidC "t3" c6CMovie [c6CMovie] uuidB c6Movies
    uuidA c6UpdT "t4" c6M1T [c6M1T, c6M2] 0 (by decide) (by decide) rfl
    (by decide) rfl rfl (by decide)

/-- C7: merging into an existing series preserves its `id` and `createdAt`,
while the stored slug is recomputed from the payload's slug-or-name by the
lowercase-hyphenating normalization, and that slug is the file key the
result is saved under. -/
theorem c7_theorem (ex : Series) (payload : SeriesCreatePayload)
    (freshId now : String) (s : Series) (key : String)
    (hok : createOrMergeSeries (some ex) payload freshId now = .ok (s, key)) :
    s.id = ex.id ∧ s.createdAt = ex.createdAt ∧
    s.slug = slugifyStrict (if payload.slug == "" then payload.name
      else payload.slug) ∧
    key = s.slug := by
  rw [createOrMergeSeries] at hok
  rcases h1 : mergeSeasons ex.seasons payload.seasons now with m | ms <;>
    simp only [h1] at hok
  · cases hok
  · rcases h2 : seriesFromInput
        ⟨some ex.id, some payload.name,
         some (slugifyStrict (if payload.slug == "" then payload.name
           else payload.slug)),
         some payload.description, some payload.posterUrl,
         some payload.categories, some (ms.map Season.toInput),
         some payload.published, some payload.featured, some ex.createdAt,
         some now⟩ with m | s0 <;> simp only [h2] at hok
    · cases hok
    · injection hok with h3
      injection h3 with h4 h5
      subst h4
      subst h5
      rw [seriesFromInput] at h2
      rcases h6 : seasonsFromInput (ms.map Season.toInput) with m | ps <;>
        simp only [h6] at h2
      · cases h2
      · by_cases hc : payload.slug == ""
        · rw [if_pos hc] at h2 ⊢
          split at h2
          · injection h2 with h7
            subst h7
            exact ⟨rfl, rfl, sanitize_slugifyStrict _, rfl⟩
          · cases h2
        · rw [if_neg hc] at h2 ⊢
          split at h2
          · injection h2 with h7
            subst h7
            exact ⟨rfl, rfl, sanitize_slugifyStrict _, rfl⟩
          · cases h2

theorem c7_witness :
    c7Res.id = c7Ex.id ∧ c7Res.createdAt = c7Ex.createdAt ∧
    c7Res.slug = slugifyStrict (if c7P.slug == "" then c7P.name
      else c7P.slug) ∧
    ("my-show" : String) = c7Res.slug := by
  exact c7_theorem c7Ex c7P uuidC "t7" c7Res "my-show" rfl

/-- C8 (claim as stated is false on the code).  Counterexample:
`incrementSeriesView` mutates an episode of a persisted series (its `views`
and `lastUpdated` change) yet leaves the containing series' `updatedAt`
untouched, so not every episode mutation re-stamps `updatedAt`. -/
theorem c8_counterexample :
    incrementSeriesView c8S 1 1 "t9" =
      { c8S with
        seasons := [⟨1, [{ ep1 with views := 1, lastUpdated := "t9" }]⟩] } ∧
    (incrementSeriesView c8S 1 1 "t9").updatedAt = "t0" ∧
    ("t0" : String) ≠ "t9" :=
  ⟨rfl, rfl, by decide⟩

/-- C8 (amended): `mergeEpisode` always re-stamps the series `updatedAt` to
the current time (on inserts and overwrites alike), but `incrementSeriesView`
never touches `updatedAt`, even when it mutates the target episode. -/
theorem c8_theorem (S : Series) (p : EpisodePayload) (fid t : String)
    (S2 : Series) (sn en : Int) (now : String)
    (hok : mergeEpisode S p fid t = .ok S2) :
    S2.updatedAt = t ∧
    (incrementSeriesView S sn en now).updatedAt = S.updatedAt :=
  ⟨mergeEpisode_updatedAt hok, incrementSeriesView_updatedAt S sn en now⟩

theorem c8_witness :
    c8S1.updatedAt = "t8" ∧
    (incrementSeriesView c8S 1 1 "t9").updatedAt = c8S.updatedAt :=
  c8_theorem c8S c8P uuidC "t8" c8S1 1 1 "t9" rfl

/-- C9: the view-increment operations are silent no-ops when the target is
absent (no error, stores unchanged), and when the target exists they bump
exactly the target's view counter by one (re-stamping its own timestamp),
leaving everything else unchanged.  An absent movie id or an absent
season/episode pair leaves the list or series exactly as it was. -/
theorem c9_theorem
    (moviesA : List Movie) (idA nowA : String)
    (moviesB : List Movie) (idB nowB : String)
    (SA : Series) (snA enA : Int) (nowC : String)
    (SB : Series) (snB enB : Int) (nowD : String)
    (habs : ∀ m ∈ moviesA, m.id ≠ idA)
    (hndB : (moviesB.map fun m => m.id).Nodup)
    (habsS : ∀ q ∈ SA.seasons, q.season = snA →
      ∀ e ∈ q.episodes, e.episode ≠ enA)
    (hinv : SeriesInv SB) :
    incrementMovieView moviesA idA nowA = moviesA ∧
    incrementMovieView moviesB idB nowB =
      (moviesB.map fun m => if m.id = idB then
        { m with views := m.views + 1, updatedAt := nowB } else m) ∧
    incrementSeriesView SA snA enA nowC = SA ∧
    incrementSeriesView SB snB enB nowD =
      { SB with seasons := SB.seasons.map fun q => if q.season = snB then
          { q with episodes := q.episodes.map fun e => if e.episode = enB then
              { e with views := e.views + 1, lastUpdated := nowD } else e }
        else q } :=
  ⟨incrementMovieView_absent habs, incrementMovieView_eq hndB,
   incrementSeriesView_absent habsS, incrementSeriesView_eq hinv⟩

theorem c9_witness :
    incrementMovieView c9Movies "zz" "t9" = c9Movies ∧
    incrementMovieView c9Movies uuidB "t9" =
      (c9Movies.map fun m => if m.id = uuidB then
        { m with views := m.views + 1, updatedAt := "t9" } else m) ∧
    incrementSeriesView c9S 1 5 "t9" = c9S ∧
    incrementSeriesView c9S 1 2 "t9" =
      { c9S with seasons := c9S.seasons.map fun q => if q.season = 1 then
          { q with episodes := q.episodes.map fun e => if e.episode = 2 then
              { e with views := e.views + 1, lastUpdated := "t9" } else e }
        else q } :=
  c9_theorem c9Movies "zz" "t9" c9Movies uuidB "t9" c9S 1 5 "t9" c9S 1 2 "t9"
    (by decide) (by decide) (by decide) (by decide)
end StreamV9
